import Mathlib

/-! p3Heap: a best-fit heap allocator with boundary-tag coalescing.

A shallow embedding of `src/p3Heap.c` (`init_heap`, `balloc`, `bfree`,
`disp_heap`) and theorems about it.

Modelling conventions:

* Addresses are byte addresses, held as mathematical integers (`Int`); the null
  pointer is `0`.  Pointer arithmetic is not wrapped: the region is far from
  the ends of the 64-bit address space.
* Memory is a total map `Int → Int` from the byte address of an `int` object to
  the value stored there.  Every access of the program is an `int` access, and on
  a heap whose start is 4 modulo 8 and whose block sizes are multiples of 8 all
  of them are 4-byte aligned, so distinct addresses never overlap.  An access
  at an address that is not a multiple of 4 lies outside these conditions; the
  model gives such an address a cell of its own (see `store`).
* Values of C type `int` are integers; every `int` addition and subtraction of
  the source is wrapped with `wrap32` (two's complement, 32 bits).
* `x & 1` and `x & 2` are the tests `aBit` and `pBit`.
* The two `while` loops walk the heap until they read the end mark; they are
  modelled with a fuel argument, `none` meaning that the fuel ran out before
  the loop ended.  `balloc` and `bfree` call `disp_heap` before they return, so
  they return only when that walk ends.  What `printf` writes is not modelled,
  apart from the rows of `disp_heap`; the totals `used_size` and `free_size` that
  `disp_heap` adds up and never prints are left out.
* The operating system is a parameter of `init_heap`: the page size, whether
  `open` succeeds, and the answer of `mmap` for each length.  A successful
  `mmap` is modelled by its result: the mapping address, and zero words in the
  mapped range.
-/

namespace P3Heap

/-! ## C integers -/

/-- Largest value of a C `int` (`INT_MAX` of `limits.h`). -/
def INT_MAX : Int := 2147483647

/-- Two's-complement reduction of an integer to the range of a 32-bit `int`. -/
def wrap32 (x : Int) : Int := (x + 2147483648) % 4294967296 - 2147483648

/-- The C operator `%` on `int`: remainder of the division that truncates
toward zero. -/
def cmod (a b : Int) : Int := Int.tmod a b

/-- The test `x & 1` (bit 0 of a two's-complement word is set). -/
def aBit (x : Int) : Bool := decide (x % 2 = 1)

/-- The test `x & 2` (bit 1 of a two's-complement word is set). -/
def pBit (x : Int) : Bool := decide (2 ≤ x % 4)

/-! ## Program state -/

/-- The globals of `p3Heap.c` together with the memory they point into:
`heap_start`, `alloc_size`, the `static int allocated_once` of `init_heap`,
and the contents of memory. -/
structure Heap where
  heap_start : Int
  alloc_size : Int
  allocated_once : Int
  mem : Int → Int

/-- The assignment `p->size_status = v` for the `blockHeader` at address `a`,
a multiple of 4: the word at `a` becomes `v` and no other word changes.  For an
address that is not a multiple of 4 the assignment has no defined behaviour in
C; the model then writes a cell of its own and leaves the words that the
address overlaps as they are. -/
def store (m : Int → Int) (a v : Int) : Int → Int :=
  fun x => if x = a then v else m x

/-! ## disp_heap (lines 301-362) -/

/-- One printed line of `disp_heap`: `No.`, `Status` (true for `alloc`),
`Prev` (true for `alloc`), `t_Begin`, `t_End`, `t_Size`. -/
structure Row where
  No : Int
  status : Bool
  prev : Bool
  t_Begin : Int
  t_End : Int
  t_Size : Int
  deriving DecidableEq, Repr

/-- The loop `while (current->size_status != 1)` of `disp_heap`
(lines 323-356), from block `current` with serial number `counter`. -/
def disp_loop (m : Int → Int) : Nat → Int → Int → Option (List Row)
  | 0, _, _ => none
  | fuel + 1, current, counter =>
    if m current = 1 then some []
    else
      let t_size := m current
      let is_used := aBit t_size
      let t_size := if is_used then wrap32 (t_size - 1) else t_size
      let p_used := pBit t_size
      let t_size := if p_used then wrap32 (t_size - 2) else t_size
      let t_end := current + t_size - 1
      match disp_loop m fuel (current + t_size) (wrap32 (counter + 1)) with
      | none => none
      | some rows => some (⟨counter, is_used, p_used, current, t_end, t_size⟩ :: rows)

/-- The function `disp_heap`: the rows it prints.  It writes nothing to memory. -/
def disp_heap (fuel : Nat) (h : Heap) : Option (List Row) :=
  disp_loop h.mem fuel h.heap_start 1

/-! ## balloc (lines 59-126) -/

/-- The search loop of `balloc` (lines 74-99).  The state is `current`, `best`
and `best_size`; the result is the final `(best, best_size)`. -/
def scan (m : Int → Int) (size : Int) : Nat → Int → Int → Int → Option (Int × Int)
  | 0, _, _, _ => none
  | fuel + 1, current, best, best_size =>
    if m current = 1 then some (best, best_size)
    else
      let curr_size := m current
      if aBit curr_size then
        let curr_size := if pBit curr_size then wrap32 (curr_size - 3) else wrap32 (curr_size - 1)
        scan m size fuel (current + curr_size) best best_size
      else
        let curr_size := if pBit curr_size then wrap32 (curr_size - 2) else curr_size
        if curr_size = size then some (current, curr_size)
        else if curr_size > size ∧ curr_size < best_size then
          scan m size fuel (current + curr_size) current curr_size
        else
          scan m size fuel (current + curr_size) best best_size

/-- The request size of `balloc` after lines 65-67: header added, rounded up to
a multiple of 8, in `int` arithmetic. -/
def needed (size : Int) : Int :=
  let size := wrap32 (size + 4)
  let padding := cmod (wrap32 (8 - cmod size 8)) 8
  wrap32 (size + padding)

/-- The placement step of `balloc` (lines 105-121) on the chosen block. -/
def place (m : Int → Int) (best best_size size : Int) : Int → Int :=
  let m := store m best (wrap32 (m best + 1))
  if wrap32 (best_size - size) ≥ 8 then
    let freed_size := wrap32 (best_size - size)
    let new_block := best + size
    let m := store m new_block (wrap32 (freed_size + 2))
    let m := store m best (wrap32 (m best - freed_size))
    let new_footer := new_block + freed_size - 4
    store m new_footer freed_size
  else
    let next_block := best + size
    if m next_block ≠ 1 then store m next_block (wrap32 (m next_block + 2)) else m

/-- The function `balloc`: the state after the call and the returned pointer
(`0` for `NULL`). -/
def balloc (fuel : Nat) (h : Heap) (size : Int) : Option (Heap × Int) :=
  if size < 1 then some (h, 0)
  else
    let size := needed size
    match scan h.mem size fuel h.heap_start 0 INT_MAX with
    | none => none
    | some (best, best_size) =>
      if best = 0 then some (h, 0)
      else
        let payload := best + 4
        let h2 : Heap := { h with mem := place h.mem best best_size size }
        match disp_heap fuel h2 with
        | none => none
        | some _ => some (h2, payload)

/-! ## bfree (lines 143-210) -/

/-- Lines 171-178 of `bfree`: clear the a-bit of the block, write its footer,
and subtract 2 from the header that follows unless it is the end mark. -/
def markFree (m : Int → Int) (curr_block curr_size : Int) : Int → Int :=
  let new_footer := curr_block + curr_size - 4
  let m := store m curr_block (wrap32 (m curr_block - 1))
  let m := store m new_footer curr_size
  let next_block := new_footer + 4
  if m next_block ≠ 1 then store m next_block (wrap32 (m next_block - 2)) else m

/-- Lines 180-191 of `bfree`: merge with the following block when its a-bit is
clear.  Returns the memory and the new `curr_size`. -/
def mergeNext (m : Int → Int) (curr_block curr_size : Int) : (Int → Int) × Int :=
  let new_footer := curr_block + curr_size - 4
  let next_block := new_footer + 4
  if ¬ aBit (m next_block) then
    let new_size2 := wrap32 (m next_block + curr_size)
    let j : Int := if pBit (m curr_block) then 2 else 0
    let m := store m curr_block (wrap32 (new_size2 + j))
    let next_footer := next_block + m next_block - 4
    let m := store m next_footer new_size2
    (m, wrap32 (m curr_block - j))
  else (m, curr_size)

/-- Lines 194-205 of `bfree`: merge with the preceding block when the p-bit of
the current block is clear.  `new_footer` is the pointer computed on line 171. -/
def mergePrev (m : Int → Int) (curr_block curr_size new_footer : Int) : Int → Int :=
  if ¬ pBit (m curr_block) then
    let prev_footer := curr_block - 4
    let prev_size := m prev_footer
    let prev_block := curr_block - prev_size
    let new_size := wrap32 (curr_size + prev_size)
    let i : Int := if pBit (m prev_block) then 2 else 0
    let m := store m prev_block (wrap32 (new_size + i))
    store m new_footer new_size
  else m

/-- Lines 162-205 of `bfree`, run once the checks have passed: the size of the
block at `curr_block` is read from its header, the block is marked free and
merged with its free neighbours. -/
def freeBlock (m : Int → Int) (curr_block : Int) : Int → Int :=
  let curr_size :=
    if pBit (m curr_block) then wrap32 (wrap32 (m curr_block - 2) - 1)
    else wrap32 (m curr_block - 1)
  let new_footer := curr_block + curr_size - 4
  let m := markFree m curr_block curr_size
  let r := mergeNext m curr_block curr_size
  mergePrev r.1 curr_block r.2 new_footer

/-- The function `bfree`: the state after the call and the returned `int`. -/
def bfree (fuel : Nat) (h : Heap) (ptr : Int) : Option (Heap × Int) :=
  if ptr = 0 then some (h, -1)
  else if ptr % 8 ≠ 0 then some (h, -1)
  else if ptr > h.heap_start + 4 * h.alloc_size then some (h, -1)
  else
    let curr_block := ptr - 4
    if ¬ aBit (h.mem curr_block) then some (h, -1)
    else
      let h2 : Heap := { h with mem := freeBlock h.mem curr_block }
      match disp_heap fuel h2 with
      | none => none
      | some _ => some (h2, 0)

/-! ## init_heap (lines 220-290) -/

/-- What the operating system answers during `init_heap`: the page size, whether
`open("/dev/zero")` succeeds, and the address returned by
`mmap(NULL, length, ...)` for the `int` that the code passes as the length
(`none` for `MAP_FAILED`). -/
structure Env where
  pagesize : Int
  open_ok : Bool
  mmap : Int → Option Int

/-- The function `init_heap`: the state after the call and the returned `int`.
A successful `mmap` yields zero-filled memory. -/
def init_heap (env : Env) (h : Heap) (sizeOfRegion : Int) : Heap × Int :=
  if 0 ≠ h.allocated_once then (h, -1)
  else if sizeOfRegion ≤ 0 then (h, -1)
  else
    let pagesize := env.pagesize
    let padsize := cmod sizeOfRegion pagesize
    let padsize := cmod (wrap32 (pagesize - padsize)) pagesize
    let alloc_size := wrap32 (sizeOfRegion + padsize)
    if ¬ env.open_ok then ({ h with alloc_size := alloc_size }, -1)
    else
      match env.mmap alloc_size with
      | none => ({ h with alloc_size := alloc_size, allocated_once := 0 }, -1)
      | some mmap_ptr =>
        let m : Int → Int :=
          fun x => if mmap_ptr ≤ x ∧ x < mmap_ptr + alloc_size then 0 else h.mem x
        let alloc_size := wrap32 (alloc_size - 8)
        let heap_start := mmap_ptr + 4
        let end_mark := heap_start + alloc_size
        let m := store m end_mark 1
        let m := store m heap_start alloc_size
        let m := store m heap_start (wrap32 (m heap_start + 2))
        let footer := heap_start + alloc_size - 4
        let m := store m footer alloc_size
        ({ heap_start := heap_start, alloc_size := alloc_size, allocated_once := 1, mem := m }, 0)

/-! ## Block lists: the specification side -/

/-- A block as the header walk sees it: its size (header included) and its
two status bits. -/
structure Block where
  size : Int
  alloc : Bool
  palloc : Bool
  deriving DecidableEq, Repr

/-- The header word of a block: size, plus 2 when the previous block is
allocated, plus 1 when the block itself is. -/
def enc (b : Block) : Int :=
  b.size + (if b.palloc then 2 else 0) + (if b.alloc then 1 else 0)

/-- Sum of the sizes of a list of blocks. -/
def total : List Block → Int
  | [] => 0
  | b :: bs => b.size + total bs

/-- The a-bit of the last block of a list, or `pa` for the empty list. -/
def lastAlloc (pa : Bool) : List Block → Bool
  | [] => pa
  | b :: bs => lastAlloc b.alloc bs

/-- The headers found from address `a` by stepping over block sizes are those of
`bs`, every size is a positive multiple of 8, and the walk arrives at `e`. -/
def Chain (m : Int → Int) : Int → List Block → Int → Prop
  | a, [], e => a = e
  | a, b :: bs, e => m a = enc b ∧ 8 ≤ b.size ∧ b.size % 8 = 0 ∧ Chain m (a + b.size) bs e

/-- Boundary tags of the blocks `bs` laid out from address `a`, where `pa` is the
a-bit of the block before `a`: every p-bit equals the a-bit of the block before,
a free block is preceded by an allocated one, and a free block ends with a
footer holding its size. -/
def Tags (m : Int → Int) : Int → Bool → List Block → Prop
  | _, _, [] => True
  | a, pa, b :: bs =>
    b.palloc = pa ∧ (b.alloc = false → pa = true ∧ m (a + b.size - 4) = b.size) ∧
      Tags m (a + b.size) b.alloc bs

/-- A well-formed heap holding the blocks `bs`: `heap_start` is a non-null
address that is 4 modulo 8 (as `init_heap` leaves it), `alloc_size` is an `int`,
the block sizes are positive multiples of 8 summing to `alloc_size`, the word
after the last block is the end mark 1, the a-bits and p-bits are accurate (the
first block has its p-bit set), no two adjacent blocks are free, and every free
block has a footer equal to its size. -/
def WellFormed (h : Heap) (bs : List Block) : Prop :=
  0 < h.heap_start ∧ h.heap_start % 8 = 4 ∧ h.alloc_size ≤ INT_MAX ∧
    Chain h.mem h.heap_start bs (h.heap_start + h.alloc_size) ∧
    h.mem (h.heap_start + h.alloc_size) = 1 ∧
    Tags h.mem h.heap_start true bs

/-- The rows `disp_heap` prints for the blocks `bs` laid out from address `a`,
numbered from `c`. -/
def rowsOf : Int → Int → List Block → List Row
  | _, _, [] => []
  | a, c, b :: bs =>
    ⟨c, b.alloc, b.palloc, a, a + b.size - 1, b.size⟩ :: rowsOf (a + b.size) (wrap32 (c + 1)) bs

/-- The block `b`, found in `bs` between `pre` and `post`, is the best fit for a
request of `size` bytes: it is free and large enough, every earlier free block
that is large enough is strictly larger, and every later one is at least as
large. -/
def IsBest (size : Int) (bs pre : List Block) (b : Block) (post : List Block) : Prop :=
  bs = pre ++ b :: post ∧ b.alloc = false ∧ size ≤ b.size ∧
  (∀ x ∈ pre, x.alloc = false → size ≤ x.size → b.size < x.size) ∧
  (∀ x ∈ post, x.alloc = false → size ≤ x.size → b.size ≤ x.size)

/-- The size field of a header word: the word with its two status bits cleared. -/
def sizeField (w : Int) : Int := w - w % 4

/-! ## Concrete heaps -/

/-- The state before `init_heap`: no heap, memory all zero. -/
def heap0 : Heap := ⟨0, 0, 0, fun _ => 0⟩

/-- An operating system with 512-byte pages that maps at address `2^32`. -/
def env512 : Env := ⟨512, true, fun length => if 0 < length then some 4294967296 else none⟩

/-- What the two system calls guarantee.  `getpagesize` returns an `int` larger
than 8: no system has pages of 8 bytes or less.  The length parameter of `mmap`
is a `size_t`, so an `int` that is negative is converted to a length above
`2^63` bytes, which `mmap` refuses, as it refuses the length 0. -/
def RealEnv (env : Env) : Prop :=
  8 < env.pagesize ∧ env.pagesize ≤ INT_MAX ∧ ∀ length, length ≤ 0 → env.mmap length = none

/-- The heap after `init_heap(512)`: one free block of 504 bytes at
`2^32 + 4`. -/
def heap504 : Heap := (init_heap env512 heap0 512).1

/-- The state component of a result, `heap0` when there is none. -/
def stateOf (r : Option (Heap × Int)) : Heap :=
  match r with
  | some (h, _) => h
  | none => heap0

/-- The heap after `balloc(24)` on `heap504`. -/
def heapA : Heap := stateOf (balloc 8 heap504 24)

/-- The heap after a second `balloc(24)`. -/
def heapB : Heap := stateOf (balloc 8 heapA 24)

instance Chain.decide (m : Int → Int) : ∀ (a : Int) (bs : List Block) (e : Int),
    Decidable (Chain m a bs e)
  | a, [], e => inferInstanceAs (Decidable (a = e))
  | a, b :: bs, e =>
    have := Chain.decide m (a + b.size) bs e
    inferInstanceAs (Decidable (m a = enc b ∧ 8 ≤ b.size ∧ b.size % 8 = 0 ∧
      Chain m (a + b.size) bs e))

instance Tags.decide (m : Int → Int) : ∀ (a : Int) (pa : Bool) (bs : List Block),
    Decidable (Tags m a pa bs)
  | _, _, [] => inferInstanceAs (Decidable True)
  | a, pa, b :: bs =>
    have := Tags.decide m (a + b.size) b.alloc bs
    inferInstanceAs (Decidable (b.palloc = pa ∧
      (b.alloc = false → pa = true ∧ m (a + b.size - 4) = b.size) ∧
      Tags m (a + b.size) b.alloc bs))

instance WellFormed.decide (h : Heap) (bs : List Block) : Decidable (WellFormed h bs) :=
  inferInstanceAs (Decidable (0 < h.heap_start ∧ h.heap_start % 8 = 4 ∧
    h.alloc_size ≤ INT_MAX ∧ Chain h.mem h.heap_start bs (h.heap_start + h.alloc_size) ∧
    h.mem (h.heap_start + h.alloc_size) = 1 ∧ Tags h.mem h.heap_start true bs))

/-- The size by which `disp_heap` steps over a header word `w` (lines 325-340):
`w` with the status bits that are set subtracted. -/
def walkSize (w : Int) : Int :=
  let t := if aBit w then wrap32 (w - 1) else w
  if pBit t then wrap32 (t - 2) else t

/-- Some two consecutive rows of a `disp_heap` listing are both free. -/
def adjacentFree : List Row → Bool
  | r1 :: r2 :: rest => (!r1.status && !r2.status) || adjacentFree (r2 :: rest)
  | _ => false

/-- Four `balloc(4)` calls on `heap504`: blocks of 8 bytes at offsets 0, 8, 16
and 24, then a free block of 472 bytes. -/
def heapS4 : Heap :=
  stateOf (balloc 8 (stateOf (balloc 8 (stateOf (balloc 8 (stateOf (balloc 8 heap504 4)) 4)) 4)) 4)

/-- After freeing the first block of `heapS4`. -/
def heapS5 : Heap := stateOf (bfree 8 heapS4 4294967304)

/-- After also freeing the third block. -/
def heapS6 : Heap := stateOf (bfree 8 heapS5 4294967320)

/-- After also freeing the second block, which merges with both neighbours. -/
def heapS7 : Heap := stateOf (bfree 8 heapS6 4294967312)

/-- After also freeing the fourth block. -/
def heapS8 : Heap := stateOf (bfree 8 heapS7 4294967328)

/-- The heap `heap504` after `balloc(INT_MAX)`. -/
def heapMax : Heap := stateOf (balloc 8 heap504 2147483647)

/-- A free block of 8 bytes followed by an allocated block of 496 bytes:
`heap504` after `balloc(4)`, `balloc(492)` and `bfree` of the first block. -/
def heapC : Heap :=
  stateOf (bfree 8 (stateOf (balloc 8 (stateOf (balloc 8 heap504 4)) 492)) 4294967304)

/-- The heap `heapC` after `balloc(INT_MAX)`. -/
def heapD : Heap := stateOf (balloc 8 heapC 2147483647)

/-- The number `M` is the least multiple of `P` that is at least `s`. -/
def IsLeastMultiple (P s M : Int) : Prop :=
  P ∣ M ∧ s ≤ M ∧ ∀ k, P ∣ k → s ≤ k → M ≤ k

/-- The list `bs` with the p-bit of its first block set to `p`. -/
def setPrev (p : Bool) : List Block → List Block
  | [] => []
  | b :: bs => { b with palloc := p } :: bs

/-- The block list after placing a request of `size` bytes in the free block
`b` found between `pre` and `post`: `b` is split when at least 8 bytes are left
over, and otherwise taken whole, the block after it getting its p-bit set. -/
def placeBlocks (size : Int) (pre : List Block) (b : Block) (post : List Block) : List Block :=
  if 8 ≤ b.size - size then
    pre ++ ⟨size, true, b.palloc⟩ :: ⟨b.size - size, false, true⟩ :: post
  else pre ++ ⟨b.size, true, b.palloc⟩ :: setPrev true post

/-- Six blocks of 16, 8, 40, 8, 24 and 408 bytes allocated from `heap504`. -/
def heapF0 : Heap :=
  stateOf (balloc 10 (stateOf (balloc 10 (stateOf (balloc 10 (stateOf (balloc 10
    (stateOf (balloc 10 (stateOf (balloc 10 heap504 12)) 4)) 36)) 4)) 20)) 404)

/-- The heap `heapF0` after freeing the blocks of 16, 40 and 24 bytes: free
blocks of sizes 16, 40 and 24 in address order, separated by allocated blocks. -/
def heapF : Heap :=
  stateOf (bfree 10 (stateOf (bfree 10 (stateOf (bfree 10 heapF0 4294967304)) 4294967328))
    4294967376)

/-- The block list of `heapF`. -/
def blocksF : List Block :=
  [⟨16, false, true⟩, ⟨8, true, false⟩, ⟨40, false, true⟩, ⟨8, true, false⟩,
    ⟨24, false, true⟩, ⟨408, true, false⟩]

/-- The heap `heapF` after `balloc(20)`. -/
def heapG : Heap := stateOf (balloc 10 heapF 20)

/-- The freed block after the forward step of `bfree`: free, with its old
p-bit, and grown by the size of the next block when that block is free. -/
def fwdBlock (cur : Block) : List Block → Block
  | [] => ⟨cur.size, false, cur.palloc⟩
  | nx :: _ =>
    if nx.alloc then ⟨cur.size, false, cur.palloc⟩
    else ⟨cur.size + nx.size, false, cur.palloc⟩

/-- The blocks after the freed one, after the forward step of `bfree`: an
allocated next block gets its p-bit cleared, a free one is absorbed. -/
def fwdRest : List Block → List Block
  | [] => []
  | nx :: rest => if nx.alloc then ⟨nx.size, true, false⟩ :: rest else rest

/-- The backward step of `bfree` on block lists: when the p-bit of the block
`cb` is clear, the last block of `pre` absorbs it. -/
def mergeBack (pre : List Block) (cb : Block) (post : List Block) : List Block :=
  if cb.palloc then pre ++ cb :: post
  else
    match pre.getLast? with
    | none => pre ++ cb :: post
    | some pv => pre.dropLast ++ ⟨pv.size + cb.size, false, pv.palloc⟩ :: post

/-- The block list after `bfree` of the allocated block `cur` found between
`pre` and `post`. -/
def freeBlocks (pre : List Block) (cur : Block) (post : List Block) : List Block :=
  mergeBack pre (fwdBlock cur post) (fwdRest post)

/-- Sum of the sizes of the free blocks of a list: the total free capacity. -/
def freeTotal : List Block → Int
  | [] => 0
  | b :: bs => (if b.alloc then 0 else b.size) + freeTotal bs

/-- First address of the block list of the concrete heaps: `2^32 + 4`. -/
def hsA : Int := 4294967300

/-- The search loop of `balloc` (lines 74-99) with a record of its iterations:
the list of the values of `current` on which the loop body ran.  The branches
are those of `scan`; the two branches of `scan` that differ only in `best` are
one branch here. -/
def scan_path (m : Int → Int) (size : Int) : Nat → Int → Option (List Int)
  | 0, _ => none
  | fuel + 1, current =>
    if m current = 1 then some []
    else
      let curr_size := m current
      if aBit curr_size then
        let curr_size := if pBit curr_size then wrap32 (curr_size - 3) else wrap32 (curr_size - 1)
        (scan_path m size fuel (current + curr_size)).map (fun l => current :: l)
      else
        let curr_size := if pBit curr_size then wrap32 (curr_size - 2) else curr_size
        if curr_size = size then some [current]
        else (scan_path m size fuel (current + curr_size)).map (fun l => current :: l)

/-- The header addresses of the blocks `bs` laid out from `a`, up to and
including the first free block of exactly `size` bytes, if there is one. -/
def visited (size : Int) : Int → List Block → List Int
  | _, [] => []
  | a, b :: bs =>
    if b.alloc = false ∧ b.size = size then [a] else a :: visited size (a + b.size) bs

/-- Accurate p-bits on a block list, where `pa` is the a-bit of the block
before the list: the p-bit of every block is the a-bit of the block before it. -/
def PBits : Bool → List Block → Prop
  | _, [] => True
  | pa, b :: bs => b.palloc = pa ∧ PBits b.alloc bs

/-- The heap `heapA` after the program stored the word 25 in the payload of the
allocated block, at `heap_start + 8`. -/
def heapU1 : Heap := { heapA with mem := store heapA.mem (hsA + 8) 25 }

/-- The heap `heapA` after the program stored the words 8, 9 and 1 in the
payload of the allocated block, at `heap_start + 4`, `+ 8` and `+ 16`. -/
def heapU2 : Heap :=
  { heapA with mem := store (store (store heapA.mem (hsA + 4) 8) (hsA + 8) 9) (hsA + 16) 1 }

/-- One action of a program that uses the allocator: a call of `init_heap`,
`balloc` or `bfree`, or stores of its own, after which memory holds `mem`. -/
inductive Call where
  | init (env : Env) (sizeOfRegion : Int)
  | alloc (fuel : Nat) (size : Int)
  | free (fuel : Nat) (ptr : Int)
  | write (mem : Int → Int)

/-- The state after one action, `none` when the call does not return. -/
def step (h : Heap) : Call → Option Heap
  | Call.init env sizeOfRegion => some (init_heap env h sizeOfRegion).1
  | Call.alloc fuel size => (balloc fuel h size).map (fun r => r.1)
  | Call.free fuel ptr => (bfree fuel h ptr).map (fun r => r.1)
  | Call.write mem => some { h with mem := mem }

/-- The state after a sequence of actions, `none` when one of them does not
return. -/
def run (h : Heap) : List Call → Option Heap
  | [] => some h
  | c :: cs => (step h c).bind (fun h2 => run h2 cs)

/-- The heap `heapB` after `bfree` of its first block. -/
def heapR : Heap := stateOf (bfree 8 heapB 4294967304)

/-! ## Arithmetic lemmas -/

theorem wrap32_id {x : Int} (h1 : -2147483648 ≤ x) (h2 : x ≤ 2147483647) : wrap32 x = x := by
  unfold wrap32; omega

theorem cmod_nonneg {a b : Int} (ha : 0 ≤ a) (hb : 0 ≤ b) : cmod a b = a % b := by
  unfold cmod; exact Int.tmod_eq_emod ha hb

theorem needed_eq {n : Int} (h1 : 1 ≤ n) (h2 : n ≤ INT_MAX - 11) :
    needed n = (n + 11) / 8 * 8 := by
  unfold INT_MAX at h2
  unfold needed
  have e1 : wrap32 (n + 4) = n + 4 := wrap32_id (by omega) (by omega)
  simp only [e1]
  have e2 : cmod (n + 4) 8 = (n + 4) % 8 := cmod_nonneg (by omega) (by omega)
  simp only [e2]
  have e3 : wrap32 (8 - (n + 4) % 8) = 8 - (n + 4) % 8 := wrap32_id (by omega) (by omega)
  simp only [e3]
  have e4 : cmod (8 - (n + 4) % 8) 8 = (8 - (n + 4) % 8) % 8 := cmod_nonneg (by omega) (by omega)
  simp only [e4]
  rw [wrap32_id (by omega) (by omega)]
  omega

theorem aBit_enc (b : Block) (h : b.size % 8 = 0) : aBit (enc b) = b.alloc := by
  unfold aBit enc
  cases hb : b.alloc <;> cases hp : b.palloc <;> simp <;> omega

theorem pBit_enc (b : Block) (h : b.size % 8 = 0) : pBit (enc b) = b.palloc := by
  unfold pBit enc
  cases hb : b.alloc <;> cases hp : b.palloc <;> simp <;> omega

theorem enc_ne_one (b : Block) (h : 8 ≤ b.size) : enc b ≠ 1 := by
  unfold enc
  cases hb : b.alloc <;> cases hp : b.palloc <;> simp <;> omega

theorem enc_bounds (b : Block) : b.size ≤ enc b ∧ enc b ≤ b.size + 3 := by
  unfold enc
  constructor <;> split_ifs <;> omega

theorem store_same (m : Int → Int) (a v : Int) : store m a v a = v := by
  simp [store]

theorem store_other (m : Int → Int) {a x : Int} (v : Int) (h : x ≠ a) : store m a v x = m x := by
  simp [store, h]

/-! ## Lemmas on chains -/

theorem total_append (xs ys : List Block) : total (xs ++ ys) = total xs + total ys := by
  induction xs with
  | nil => simp [total]
  | cons b bs ih => simp [total, ih]; omega

theorem lastAlloc_append (pa : Bool) (xs ys : List Block) :
    lastAlloc pa (xs ++ ys) = lastAlloc (lastAlloc pa xs) ys := by
  induction xs generalizing pa with
  | nil => simp [lastAlloc]
  | cons b bs ih => simp [lastAlloc, ih]

theorem Chain_end {m : Int → Int} {a e : Int} {bs : List Block} (h : Chain m a bs e) :
    a + total bs = e := by
  induction bs generalizing a with
  | nil => simpa [Chain, total] using h
  | cons b bs ih =>
    obtain ⟨_, _, _, h4⟩ := h
    have := ih h4
    simp only [total]; omega

theorem Chain_total_ge {m : Int → Int} {a e : Int} {bs : List Block} (h : Chain m a bs e) :
    8 * (bs.length : Int) ≤ total bs := by
  induction bs generalizing a with
  | nil => simp [total]
  | cons b bs ih =>
    obtain ⟨_, h2, _, h4⟩ := h
    have := ih h4
    simp only [total, List.length_cons]; push_cast; omega

theorem Chain_append {m : Int → Int} {a e : Int} {xs ys : List Block} :
    Chain m a (xs ++ ys) e ↔ Chain m a xs (a + total xs) ∧ Chain m (a + total xs) ys e := by
  induction xs generalizing a with
  | nil => simp [Chain, total]
  | cons b bs ih =>
    have e1 : a + (b.size + total bs) = a + b.size + total bs := by omega
    show (m a = enc b ∧ 8 ≤ b.size ∧ b.size % 8 = 0 ∧ Chain m (a + b.size) (bs ++ ys) e) ↔ _
    rw [ih]
    simp only [Chain, total, e1]
    tauto

theorem Chain_congr {m m2 : Int → Int} {a e : Int} {bs : List Block}
    (hm : ∀ x, a ≤ x → x < e → m2 x = m x) (h : Chain m a bs e) : Chain m2 a bs e := by
  induction bs generalizing a with
  | nil => exact h
  | cons b bs ih =>
    obtain ⟨h1, h2, h3, h4⟩ := h
    have hend := Chain_end h4
    have hge := Chain_total_ge h4
    refine ⟨?_, h2, h3, ih (fun x hx1 hx2 => hm x (by omega) hx2) h4⟩
    rw [hm a (le_refl a) (by omega)]; exact h1

theorem Chain_mod {m : Int → Int} {a e : Int} {bs : List Block} (h : Chain m a bs e) :
    e % 8 = a % 8 := by
  induction bs generalizing a with
  | nil => simp only [Chain] at h; rw [h]
  | cons b bs ih =>
    obtain ⟨_, _, h3, h4⟩ := h
    have := ih h4
    omega

theorem decode_block (b : Block) (h1 : 8 ≤ b.size) (h2 : b.size ≤ 2147483640)
    (h3 : b.size % 8 = 0) :
    pBit (if aBit (enc b) then wrap32 (enc b - 1) else enc b) = b.palloc ∧
    (if pBit (if aBit (enc b) then wrap32 (enc b - 1) else enc b)
      then wrap32 ((if aBit (enc b) then wrap32 (enc b - 1) else enc b) - 2)
      else (if aBit (enc b) then wrap32 (enc b - 1) else enc b)) = b.size := by
  unfold aBit pBit enc wrap32
  cases hb : b.alloc <;> cases hp : b.palloc <;> simp <;> omega

theorem disp_loop_chain {m : Int → Int} {e : Int} (he : m e = 1) :
    ∀ (bs : List Block) (a c : Int) (fuel : Nat), Chain m a bs e → e - a ≤ 2147483640 →
      bs.length < fuel → disp_loop m fuel a c = some (rowsOf a c bs) := by
  intro bs
  induction bs with
  | nil =>
    intro a c fuel h _ hf
    obtain ⟨f, rfl⟩ : ∃ f, fuel = f + 1 := ⟨fuel - 1, by simp at hf; omega⟩
    simp only [Chain] at h
    subst h
    simp [disp_loop, he, rowsOf]
  | cons b bs ih =>
    intro a c fuel h hb hf
    obtain ⟨f, rfl⟩ : ∃ f, fuel = f + 1 := ⟨fuel - 1, by simp at hf; omega⟩
    obtain ⟨h1, h2, h3, h4⟩ := h
    have hend := Chain_end h4
    have hge := Chain_total_ge h4
    have hd := decode_block b h2 (by omega) h3
    have hne : m a ≠ 1 := by rw [h1]; exact enc_ne_one b h2
    have hab := aBit_enc b h3
    rw [hab] at hd
    obtain ⟨hd1, hd2⟩ := hd
    rw [hd1] at hd2
    simp only [List.length_cons] at hf
    have ih2 := ih (a + b.size) (wrap32 (c + 1)) f h4 (by omega) (by omega)
    simp only [disp_loop, h1, enc_ne_one b h2, if_false, hab, hd1, hd2, ih2, rowsOf]

/-! ## The search loop of balloc -/

theorem scan_decode (b : Block) (h1 : 8 ≤ b.size) (h2 : b.size ≤ 2147483640)
    (h3 : b.size % 8 = 0) :
    (if pBit (enc b) then wrap32 (enc b - 3) else wrap32 (enc b - 1)) =
      (if b.alloc then b.size else b.size - 1) ∧
    (if pBit (enc b) then wrap32 (enc b - 2) else enc b) =
      (if b.alloc then b.size + 1 else b.size) := by
  unfold pBit enc wrap32
  cases hb : b.alloc <;> cases hp : b.palloc <;> simp <;> omega

theorem scan_step {m : Int → Int} {size a : Int} {b : Block} (f : Nat) (best bsz : Int)
    (h1 : m a = enc b) (h2 : 8 ≤ b.size) (hb : b.size ≤ 2147483640) (h3 : b.size % 8 = 0) :
    scan m size (f + 1) a best bsz =
      if b.alloc then scan m size f (a + b.size) best bsz
      else if b.size = size then some (a, b.size)
      else if b.size > size ∧ b.size < bsz then scan m size f (a + b.size) a b.size
      else scan m size f (a + b.size) best bsz := by
  have hd := scan_decode b h2 hb h3
  have hab := aBit_enc b h3
  cases hal : b.alloc
  · simp only [hal] at hd hab
    simp [scan, h1, enc_ne_one b h2, hab, hd.2]
  · simp only [hal] at hd hab
    simp [scan, h1, enc_ne_one b h2, hab, hd.1]

theorem scan_spec {m : Int → Int} {e size : Int} (he : m e = 1) :
    ∀ (bs : List Block) (a best bsz : Int) (fuel : Nat) (r rs : Int),
      Chain m a bs e → e - a ≤ 2147483640 → size < bsz →
      scan m size fuel a best bsz = some (r, rs) →
      (r = best ∧ rs = bsz ∧ ∀ x ∈ bs, x.alloc = false → size ≤ x.size → bsz ≤ x.size) ∨
      (∃ pre b post, IsBest size bs pre b post ∧ r = a + total pre ∧ rs = b.size ∧
        b.size < bsz) := by
  intro bs
  induction bs with
  | nil =>
    intro a best bsz fuel r rs h _ _ hs
    cases fuel with
    | zero => simp [scan] at hs
    | succ f =>
      simp only [Chain] at h
      subst h
      simp only [scan, he, if_true, Option.some.injEq, Prod.mk.injEq] at hs
      left
      exact ⟨hs.1.symm, hs.2.symm, by simp⟩
  | cons b bs ih =>
    intro a best bsz fuel r rs h hbd hlt hs
    cases fuel with
    | zero => simp [scan] at hs
    | succ f =>
      obtain ⟨h1, h2, h3, h4⟩ := h
      have hend := Chain_end h4
      have hge := Chain_total_ge h4
      rw [scan_step f best bsz h1 h2 (by omega) h3] at hs
      cases hal : b.alloc
      · simp only [hal, Bool.false_eq_true, if_false] at hs
        by_cases heq : b.size = size
        · simp only [heq, if_true, Option.some.injEq, Prod.mk.injEq] at hs
          right
          refine ⟨[], b, bs, ⟨rfl, hal, by omega, by simp, ?_⟩, by simp [total, hs.1], by omega,
            by omega⟩
          intro x _ _ hx; omega
        · simp only [heq, if_false] at hs
          by_cases hbt : b.size > size ∧ b.size < bsz
          · simp only [hbt, and_self, if_true] at hs
            rcases ih (a + b.size) a b.size f r rs h4 (by omega) hbt.1 hs with hA | hB
            · obtain ⟨hr, hrs, hall⟩ := hA
              right
              refine ⟨[], b, bs, ⟨rfl, hal, by omega, by simp, hall⟩, by simp [total, hr],
                hrs, hbt.2⟩
            · obtain ⟨pre, b2, post, ⟨hbs, hfree, hsz, hpre, hpost⟩, hr, hrs, hlt2⟩ := hB
              right
              refine ⟨b :: pre, b2, post, ⟨by simp [hbs], hfree, hsz, ?_, hpost⟩,
                by simp only [total]; omega, hrs, by omega⟩
              intro x hx hxf hxs
              rcases List.mem_cons.mp hx with rfl | hx2
              · exact hlt2
              · exact hpre x hx2 hxf hxs
          · simp only [hbt, if_false] at hs
            rcases ih (a + b.size) best bsz f r rs h4 (by omega) hlt hs with hA | hB
            · obtain ⟨hr, hrs, hall⟩ := hA
              left
              refine ⟨hr, hrs, ?_⟩
              intro x hx hxf hxs
              rcases List.mem_cons.mp hx with rfl | hx2
              · by_contra hc
                exact hbt ⟨by omega, by omega⟩
              · exact hall x hx2 hxf hxs
            · obtain ⟨pre, b2, post, ⟨hbs, hfree, hsz, hpre, hpost⟩, hr, hrs, hlt2⟩ := hB
              right
              refine ⟨b :: pre, b2, post, ⟨by simp [hbs], hfree, hsz, ?_, hpost⟩,
                by simp only [total]; omega, hrs, hlt2⟩
              intro x hx hxf hxs
              rcases List.mem_cons.mp hx with rfl | hx2
              · by_contra hc
                exact hbt ⟨by omega, by omega⟩
              · exact hpre x hx2 hxf hxs
      · simp only [hal, if_true] at hs
        rcases ih (a + b.size) best bsz f r rs h4 (by omega) hlt hs with hA | hB
        · obtain ⟨hr, hrs, hall⟩ := hA
          left
          refine ⟨hr, hrs, ?_⟩
          intro x hx hxf hxs
          rcases List.mem_cons.mp hx with rfl | hx2
          · rw [hal] at hxf; exact absurd hxf (by simp)
          · exact hall x hx2 hxf hxs
        · obtain ⟨pre, b2, post, ⟨hbs, hfree, hsz, hpre, hpost⟩, hr, hrs, hlt2⟩ := hB
          right
          refine ⟨b :: pre, b2, post, ⟨by simp [hbs], hfree, hsz, ?_, hpost⟩,
            by simp only [total]; omega, hrs, hlt2⟩
          intro x hx hxf hxs
          rcases List.mem_cons.mp hx with rfl | hx2
          · rw [hal] at hxf; exact absurd hxf (by simp)
          · exact hpre x hx2 hxf hxs

theorem scan_total {m : Int → Int} {e size : Int} (he : m e = 1) :
    ∀ (bs : List Block) (a best bsz : Int) (fuel : Nat),
      Chain m a bs e → e - a ≤ 2147483640 → bs.length < fuel →
      ∃ r, scan m size fuel a best bsz = some r := by
  intro bs
  induction bs with
  | nil =>
    intro a best bsz fuel h _ hf
    obtain ⟨f, rfl⟩ : ∃ f, fuel = f + 1 := ⟨fuel - 1, by simp at hf; omega⟩
    simp only [Chain] at h
    subst h
    exact ⟨(best, bsz), by simp [scan, he]⟩
  | cons b bs ih =>
    intro a best bsz fuel h hbd hf
    obtain ⟨f, rfl⟩ : ∃ f, fuel = f + 1 := ⟨fuel - 1, by simp at hf; omega⟩
    obtain ⟨h1, h2, h3, h4⟩ := h
    have hend := Chain_end h4
    have hge := Chain_total_ge h4
    simp only [List.length_cons] at hf
    rw [scan_step f best bsz h1 h2 (by omega) h3]
    split_ifs
    · exact ih _ _ _ f h4 (by omega) (by omega)
    · exact ⟨_, rfl⟩
    · exact ih _ _ _ f h4 (by omega) (by omega)
    · exact ih _ _ _ f h4 (by omega) (by omega)

/-! ## The request size -/

theorem cmod8_spec (a : Int) :
    (cmod a 8 - a) % 8 = 0 ∧ (0 ≤ a → 0 ≤ cmod a 8 ∧ cmod a 8 < 8) ∧
      (a < 0 → -8 < cmod a 8 ∧ cmod a 8 ≤ 0) := by
  unfold cmod
  have h1 := Int.tmod_add_tdiv a 8
  refine ⟨by omega, ?_, ?_⟩
  · intro h
    rw [Int.tmod_eq_emod h (by omega)]
    omega
  · intro h
    cases a with
    | ofNat n => exact absurd h (by simp)
    | negSucc n =>
      have : Int.tmod (Int.negSucc n) 8 = -(((n + 1) % 8 : Nat) : Int) := rfl
      rw [this]
      omega

/-- For a request that is a positive `int`, the size computed on lines 65-67
is a nonzero multiple of 8 in the range of `int`; it is the request plus 4
rounded up when that fits, and a negative number otherwise. -/
theorem needed_spec {n : Int} (h1 : 1 ≤ n) (h2 : n ≤ INT_MAX) :
    needed n % 8 = 0 ∧ needed n ≠ 0 ∧ -2147483648 ≤ needed n ∧ needed n ≤ 2147483640 ∧
      (n ≤ INT_MAX - 11 → needed n = (n + 11) / 8 * 8) ∧
      (INT_MAX - 11 < n → needed n ≤ -2147483640) := by
  unfold INT_MAX at *
  by_cases hn : n ≤ 2147483636
  · have e := needed_eq h1 (by unfold INT_MAX; omega)
    rw [e]
    refine ⟨by omega, by omega, by omega, by omega, fun _ => rfl, fun h => by omega⟩
  · unfold needed
    simp only []
    obtain ⟨c1, c2, c3⟩ := cmod8_spec (wrap32 (n + 4))
    generalize cmod (wrap32 (n + 4)) 8 = r at c1 c2 c3 ⊢
    obtain ⟨d1, d2, d3⟩ := cmod8_spec (wrap32 (8 - r))
    generalize cmod (wrap32 (8 - r)) 8 = q at d1 d2 d3 ⊢
    unfold wrap32 at *
    refine ⟨by omega, by omega, by omega, by omega, fun h => by omega, fun _ => by omega⟩

/-! ## Stores and chains -/

theorem Chain_store_lt {m : Int → Int} {a e w : Int} {bs : List Block} (v : Int) (hw : w < a)
    (h : Chain m a bs e) : Chain (store m w v) a bs e :=
  Chain_congr (fun x hx _ => store_other m v (by omega)) h

theorem Chain_store_ge {m : Int → Int} {a e w : Int} {bs : List Block} (v : Int) (hw : e ≤ w)
    (h : Chain m a bs e) : Chain (store m w v) a bs e :=
  Chain_congr (fun x _ hx => store_other m v (by omega)) h

theorem Chain_size_le {m : Int → Int} {a e : Int} {pre post : List Block} {b : Block}
    (h : Chain m a (pre ++ b :: post) e) :
    m (a + total pre) = enc b ∧ 8 ≤ b.size ∧ b.size % 8 = 0 ∧ 0 ≤ total pre ∧
      total pre % 8 = 0 ∧ 0 ≤ total post ∧ a + total pre + b.size + total post = e ∧
      Chain m a pre (a + total pre) ∧ Chain m (a + total pre + b.size) post e := by
  obtain ⟨hp, hq⟩ := Chain_append.mp h
  obtain ⟨q1, q2, q3, q4⟩ := hq
  have := Chain_total_ge hp
  have := Chain_total_ge q4
  have := Chain_end q4
  have := Chain_mod hp
  exact ⟨q1, q2, q3, by omega, by omega, by omega, by omega, hp, q4⟩

/-! ## What balloc returns -/


theorem WellFormed.bound {h : Heap} {bs : List Block} (hwf : WellFormed h bs) :
    h.heap_start + h.alloc_size - h.heap_start ≤ 2147483640 := by
  obtain ⟨_, _, h3, h4, _, _⟩ := hwf
  have := Chain_mod h4
  unfold INT_MAX at h3
  omega

theorem balloc_inv {fuel : Nat} {h h2 : Heap} {n p : Int}
    (hb : balloc fuel h n = some (h2, p)) (hp : p ≠ 0) :
    1 ≤ n ∧ ∃ best bsz, scan h.mem (needed n) fuel h.heap_start 0 INT_MAX = some (best, bsz) ∧
      best ≠ 0 ∧ p = best + 4 ∧ h2 = { h with mem := place h.mem best bsz (needed n) } := by
  unfold balloc at hb
  by_cases h1 : n < 1
  · simp only [h1, if_true, Option.some.injEq, Prod.mk.injEq] at hb
    exact absurd hb.2.symm hp
  · simp only [h1, if_false] at hb
    refine ⟨by omega, ?_⟩
    cases hs : scan h.mem (needed n) fuel h.heap_start 0 INT_MAX with
    | none => simp [hs] at hb
    | some r =>
      obtain ⟨best, bsz⟩ := r
      simp only [hs] at hb
      by_cases h0 : best = 0
      · simp only [h0, if_true, Option.some.injEq, Prod.mk.injEq] at hb
        exact absurd hb.2.symm hp
      · simp only [h0, if_false] at hb
        cases hd : disp_heap fuel { h with mem := place h.mem best bsz (needed n) } with
        | none => simp [hd] at hb
        | some rows =>
          simp only [hd, Option.some.injEq, Prod.mk.injEq] at hb
          exact ⟨best, bsz, rfl, h0, hb.2.symm, hb.1.symm⟩

/-- On a well-formed heap a non-null result of the search loop is the best-fit
block for the computed size. -/
theorem scan_found {fuel : Nat} {h : Heap} {bs : List Block} {n best bsz : Int}
    (hwf : WellFormed h bs) (h1 : 1 ≤ n) (h2 : n ≤ INT_MAX)
    (hs : scan h.mem (needed n) fuel h.heap_start 0 INT_MAX = some (best, bsz))
    (h0 : best ≠ 0) :
    ∃ pre b post, IsBest (needed n) bs pre b post ∧ best = h.heap_start + total pre ∧
      bsz = b.size := by
  have hbd := hwf.bound
  obtain ⟨_, _, _, hc, he, _⟩ := hwf
  obtain ⟨_, _, _, n4, _, _⟩ := needed_spec h1 h2
  rcases scan_spec he bs _ 0 INT_MAX fuel best bsz hc hbd (by unfold INT_MAX; omega) hs with hA | hB
  · exact absurd hA.1 h0
  · obtain ⟨pre, b, post, hbest, hr, hrs, _⟩ := hB
    exact ⟨pre, b, post, hbest, hr, hrs⟩

/-- The header of the chosen block after the placement step: it is marked
allocated, keeps its p-bit, and its size is the request size when the block is
split and the old size otherwise. -/
theorem place_header {m : Int → Int} {best size : Int} (b : Block) (h1 : m best = enc b)
    (hfree : b.alloc = false) (hs : 8 ≤ b.size) (hb : b.size ≤ 2147483640)
    (h8 : b.size % 8 = 0) (hsz8 : size % 8 = 0) (hle : size ≤ b.size)
    (hlo : -2147483648 ≤ size)
    (hcase : 8 ≤ size ∨ size ≤ -2147483640) :
    place m best b.size size best =
      enc ⟨if 8 ≤ size ∧ 8 ≤ b.size - size then size else b.size, true, b.palloc⟩ := by
  have hnb : best ≠ best + size := by omega
  have e1 : wrap32 (enc b + 1) = enc b + 1 := by
    have := enc_bounds b
    exact wrap32_id (by omega) (by omega)
  unfold place
  simp only [h1, e1]
  by_cases hsplit : wrap32 (b.size - size) ≥ 8
  · simp only [hsplit, if_true]
    have hd : wrap32 (b.size - size) = b.size - size ∧ 8 ≤ size := by
      unfold wrap32 at hsplit ⊢; omega
    rw [hd.1]
    have hnf : best ≠ best + size + (b.size - size) - 4 := by omega
    rw [store_other _ _ hnf, store_same, store_other _ _ hnb, store_same]
    have : 8 ≤ size ∧ 8 ≤ b.size - size := ⟨hd.2, by omega⟩
    simp only [this, and_self, if_true]
    unfold enc wrap32
    simp only [hfree]
    cases b.palloc <;> simp <;> omega
  · simp only [hsplit, if_false]
    have hc : ¬ (8 ≤ size ∧ 8 ≤ b.size - size) := by
      unfold wrap32 at hsplit; omega
    simp only [hc, if_false]
    have : (if ¬ store m best (enc b + 1) (best + size) = 1 then
        store (store m best (enc b + 1)) (best + size)
          (wrap32 (store m best (enc b + 1) (best + size) + 2))
        else store m best (enc b + 1)) best = enc b + 1 := by
      split_ifs
      · rw [store_same]
      · rw [store_other _ _ hnb, store_same]
    simp only [ne_eq] at this ⊢
    rw [this]
    unfold enc
    simp only [hfree]
    cases b.palloc <;> simp

theorem sizeField_enc (b : Block) (h : b.size % 8 = 0) : sizeField (enc b) = b.size := by
  unfold sizeField enc
  cases b.alloc <;> cases b.palloc <;> simp <;> omega

/-- What a successful `balloc` did, on a well-formed heap: the returned address
is the payload of the best-fit block `b` for the computed size, and the header
of that block now carries the a-bit, the old p-bit, and either the request
size (split) or the old size. -/
theorem balloc_result {fuel : Nat} {h h2 : Heap} {bs : List Block} {n p : Int}
    (hwf : WellFormed h bs) (hn : n ≤ INT_MAX)
    (hb : balloc fuel h n = some (h2, p)) (hp : p ≠ 0) :
    1 ≤ n ∧ ∃ pre b post, IsBest (needed n) bs pre b post ∧
      p = h.heap_start + total pre + 4 ∧
      h2 = { h with mem := place h.mem (h.heap_start + total pre) b.size (needed n) } ∧
      h2.mem (p - 4) =
        enc ⟨if 8 ≤ needed n ∧ 8 ≤ b.size - needed n then needed n else b.size, true,
          b.palloc⟩ := by
  obtain ⟨h1, best, bsz, hs, h0, hpe, hh⟩ := balloc_inv hb hp
  obtain ⟨pre, b, post, hbest, hbe, hbs⟩ := scan_found hwf h1 hn hs h0
  refine ⟨h1, pre, b, post, hbest, by omega, by rw [hh, hbe, hbs], ?_⟩
  have hbd := hwf.bound
  obtain ⟨_, _, _, hc, he, _⟩ := hwf
  obtain ⟨hb1, hfree, hle, _, _⟩ := hbest
  rw [hb1] at hc
  obtain ⟨c1, c2, c3, c4, c5, c6, c7, _, _⟩ := Chain_size_le hc
  obtain ⟨n1, n2, n3, n4, n5, n6⟩ := needed_spec h1 hn
  have hcase : 8 ≤ needed n ∨ needed n ≤ -2147483640 := by
    by_cases hr : n ≤ INT_MAX - 11
    · left; rw [n5 hr]; omega
    · right; exact n6 (by omega)
  have := @place_header h.mem (h.heap_start + total pre) (needed n) b c1
    hfree c2 (by omega) c3 n1 hle n3 hcase
  rw [hh, hpe, hbe, hbs]
  simpa using this

/-- C5 (no overlap): on a well-formed heap, when `balloc n` returns a non-null
address `p`, the block whose header is at `p - 4` has a size of at least 8, and
its address range does not meet the range of any block that was allocated
before the call. -/
theorem balloc_no_overlap (fuel : Nat) (h h2 : Heap) (bs : List Block) (n p : Int)
    (hwf : WellFormed h bs) (hn : n ≤ INT_MAX)
    (hb : balloc fuel h n = some (h2, p)) (hp : p ≠ 0) :
    8 ≤ sizeField (h2.mem (p - 4)) ∧
    ∀ pre b post, bs = pre ++ b :: post → b.alloc = true →
      h.heap_start + total pre + b.size ≤ p - 4 ∨
      p - 4 + sizeField (h2.mem (p - 4)) ≤ h.heap_start + total pre := by
  obtain ⟨h1, pre2, b2, post2, hbest, hpe, -, hhdr⟩ := balloc_result hwf hn hb hp
  obtain ⟨_, _, _, hc, he, _⟩ := hwf
  obtain ⟨hb1, hfree, hle, _, _⟩ := hbest
  have hc2 := hc
  rw [hb1] at hc2
  obtain ⟨c1, c2, c3, c4, c5, c6, c7, _, _⟩ := Chain_size_le hc2
  obtain ⟨n1, -, -, -, -, -⟩ := needed_spec h1 hn
  have hsz : sizeField (h2.mem (p - 4)) =
      if 8 ≤ needed n ∧ 8 ≤ b2.size - needed n then needed n else b2.size := by
    rw [hhdr, sizeField_enc]
    simp only
    split_ifs <;> omega
  have hsz2 : 8 ≤ sizeField (h2.mem (p - 4)) ∧ sizeField (h2.mem (p - 4)) ≤ b2.size := by
    rw [hsz]; split_ifs <;> omega
  refine ⟨hsz2.1, ?_⟩
  intro pre b post hbs hal
  have hc3 := hc
  rw [hbs] at hc3
  obtain ⟨d1, d2, d3, d4, d5, d6, d7, _, _⟩ := Chain_size_le hc3
  have heq : pre ++ b :: post = pre2 ++ b2 :: post2 := by rw [← hbs, hb1]
  rcases List.append_eq_append_iff.mp heq with ⟨a', ha1, ha2⟩ | ⟨c', hc1, hc2'⟩
  · -- pre2 = pre ++ a'
    cases a' with
    | nil =>
      simp only [List.nil_append, List.cons.injEq] at ha2
      rw [ha2.1, hfree] at hal
      exact absurd hal (by simp)
    | cons x xs =>
      simp only [List.cons_append, List.cons.injEq] at ha2
      left
      have hc4 := hc2
      rw [ha1, List.append_assoc] at hc4
      obtain ⟨_, hq⟩ := Chain_append.mp hc4
      have hq' : Chain h.mem (h.heap_start + total pre) ((x :: xs) ++ b2 :: post2)
          (h.heap_start + h.alloc_size) := hq
      obtain ⟨_, _, _, hq3⟩ := Chain_append.mp hq' |>.1
      have := Chain_total_ge hq3
      have t1 : total pre2 = total pre + (x.size + total xs) := by
        rw [ha1, total_append]; simp only [total]
      rw [← ha2.1] at t1
      omega
  · -- pre = pre2 ++ c'
    cases c' with
    | nil =>
      simp only [List.nil_append, List.cons.injEq] at hc2'
      rw [← hc2'.1, hfree] at hal
      exact absurd hal (by simp)
    | cons x xs =>
      simp only [List.cons_append, List.cons.injEq] at hc2'
      right
      have hc4 := hc3
      rw [hc1, List.append_assoc] at hc4
      obtain ⟨_, hq⟩ := Chain_append.mp hc4
      have hq' : Chain h.mem (h.heap_start + total pre2) ((x :: xs) ++ b :: post)
          (h.heap_start + h.alloc_size) := hq
      obtain ⟨_, _, _, hq3⟩ := Chain_append.mp hq' |>.1
      have := Chain_total_ge hq3
      have t1 : total pre = total pre2 + (x.size + total xs) := by
        rw [hc1, total_append]; simp only [total]
      rw [← hc2'.1] at t1
      omega

/-- C6 (alignment): on a well-formed heap, whose `heap_start` is 4 modulo 8 as
`init_heap` leaves it, every non-null address returned by `balloc` is a
multiple of 8. -/
theorem balloc_aligned (fuel : Nat) (h h2 : Heap) (bs : List Block) (n p : Int)
    (hwf : WellFormed h bs) (hn : n ≤ INT_MAX)
    (hb : balloc fuel h n = some (h2, p)) (hp : p ≠ 0) : p % 8 = 0 := by
  obtain ⟨h1, pre2, b2, post2, hbest, hpe, -, -⟩ := balloc_result hwf hn hb hp
  obtain ⟨_, ha, _, hc, he, _⟩ := hwf
  rw [hbest.1] at hc
  obtain ⟨c1, c2, c3, c4, c5, c6, c7, _, _⟩ := Chain_size_le hc
  omega

theorem heap504_wf : WellFormed heap504 [⟨504, false, true⟩] := by decide

theorem heapA_wf : WellFormed heapA [⟨32, true, true⟩, ⟨472, false, true⟩] := by decide

theorem heapA_balloc : balloc 8 heapA 24 = some (heapB, 4294967336) := rfl

theorem balloc_no_overlap_witness :
    WellFormed heapA [⟨32, true, true⟩, ⟨472, false, true⟩] ∧
    balloc 8 heapA 24 = some (heapB, 4294967336) ∧
    (heapA.heap_start + total [] + 32 ≤ 4294967336 - 4 ∨
      4294967336 - 4 + sizeField (heapB.mem (4294967336 - 4)) ≤ heapA.heap_start + total []) :=
  ⟨heapA_wf, heapA_balloc,
    (balloc_no_overlap 8 heapA heapB [⟨32, true, true⟩, ⟨472, false, true⟩] 24 4294967336 heapA_wf
      (by decide) heapA_balloc (by decide)).2 [] ⟨32, true, true⟩ [⟨472, false, true⟩] rfl rfl⟩

theorem balloc_aligned_witness :
    WellFormed heapA [⟨32, true, true⟩, ⟨472, false, true⟩] ∧
    balloc 8 heapA 24 = some (heapB, 4294967336) ∧ (4294967336 : Int) % 8 = 0 :=
  ⟨heapA_wf, heapA_balloc,
    balloc_aligned 8 heapA heapB [⟨32, true, true⟩, ⟨472, false, true⟩] 24 4294967336 heapA_wf
      (by decide) heapA_balloc (by decide)⟩

/-! ## Walks that never end -/

theorem disp_loop_succ (m : Int → Int) (f : Nat) (a c : Int) :
    disp_loop m (f + 1) a c =
      if m a = 1 then some []
      else
        match disp_loop m f (a + walkSize (m a)) (wrap32 (c + 1)) with
        | none => none
        | some rows =>
          some (⟨c, aBit (m a), pBit (if aBit (m a) then wrap32 (m a - 1) else m a), a,
            a + walkSize (m a) - 1, walkSize (m a)⟩ :: rows) := rfl

theorem disp_loop_none_step {m : Int → Int} {a a2 : Int} (h1 : m a ≠ 1)
    (h2 : a + walkSize (m a) = a2) (hn : ∀ fuel c, disp_loop m fuel a2 c = none) :
    ∀ fuel c, disp_loop m fuel a c = none := by
  intro fuel c
  cases fuel with
  | zero => rfl
  | succ f => rw [disp_loop_succ, if_neg h1, h2, hn]

theorem disp_loop_stuck {m : Int → Int} {a : Int} (h1 : m a ≠ 1) (h2 : walkSize (m a) = 0) :
    ∀ fuel c, disp_loop m fuel a c = none := by
  intro fuel
  induction fuel with
  | zero => intro c; rfl
  | succ f ih =>
    intro c
    rw [disp_loop_succ, if_neg h1, h2, Int.add_zero, ih]

theorem bfree_eq {fuel : Nat} {h : Heap} {ptr : Int} (h1 : ptr ≠ 0) (h2 : ptr % 8 = 0)
    (h3 : ptr ≤ h.heap_start + 4 * h.alloc_size) (h4 : aBit (h.mem (ptr - 4)) = true) :
    bfree fuel h ptr =
      match disp_heap fuel { h with mem := freeBlock h.mem (ptr - 4) } with
      | none => none
      | some _ => some ({ h with mem := freeBlock h.mem (ptr - 4) }, 0) := by
  unfold bfree
  have h3' : ¬ ptr > h.heap_start + 4 * h.alloc_size := by omega
  simp [h1, h2, h3', h4]

/-! ## Concrete runs -/

theorem heapC_wf : WellFormed heapC [⟨8, false, true⟩, ⟨496, true, false⟩] := by decide

/-- C1: a run of `init_heap`, four `balloc` and four `bfree` calls after which
the last `bfree` returns 0 and the header walk shows two adjacent free blocks,
of 24 and 480 bytes. -/
theorem bfree_leaves_adjacent_free :
    init_heap env512 heap0 512 = (heap504, 0) ∧
    balloc 8 heap504 4 = some (stateOf (balloc 8 heap504 4), 4294967304) ∧
    balloc 8 (stateOf (balloc 8 heap504 4)) 4 =
      some (stateOf (balloc 8 (stateOf (balloc 8 heap504 4)) 4), 4294967312) ∧
    balloc 8 (stateOf (balloc 8 (stateOf (balloc 8 heap504 4)) 4)) 4 =
      some (stateOf (balloc 8 (stateOf (balloc 8 (stateOf (balloc 8 heap504 4)) 4)) 4),
        4294967320) ∧
    balloc 8 (stateOf (balloc 8 (stateOf (balloc 8 (stateOf (balloc 8 heap504 4)) 4)) 4)) 4 =
      some (heapS4, 4294967328) ∧
    bfree 8 heapS4 4294967304 = some (heapS5, 0) ∧
    bfree 8 heapS5 4294967320 = some (heapS6, 0) ∧
    bfree 8 heapS6 4294967312 = some (heapS7, 0) ∧
    bfree 8 heapS7 4294967328 = some (heapS8, 0) ∧
    disp_heap 8 heapS8 =
      some [⟨1, false, true, 4294967300, 4294967323, 24⟩,
        ⟨2, false, false, 4294967324, 4294967803, 480⟩] ∧
    (disp_heap 8 heapS8).map adjacentFree = some true :=
  ⟨rfl, rfl, rfl, rfl, rfl, rfl, rfl, rfl, rfl, by decide, by decide⟩

/-- C4: on the well-formed heap of one free 504-byte block, `balloc(INT_MAX)`
returns a non-null address whose block is marked allocated and has size 504, so
its payload is smaller than the request. -/
theorem balloc_int_max_undersized :
    WellFormed heap504 [⟨504, false, true⟩] ∧
    balloc 8 heap504 2147483647 = some (heapMax, 4294967304) ∧
    aBit (heapMax.mem (4294967304 - 4)) = true ∧
    sizeField (heapMax.mem (4294967304 - 4)) = 504 ∧
    ¬ (2147483647 ≤ sizeField (heapMax.mem (4294967304 - 4)) - 4) :=
  ⟨heap504_wf, rfl, by decide, by decide, by decide⟩

/-- C9: on the well-formed heap of one free 504-byte block, `balloc(INT_MAX)`,
a request above the total free capacity, returns a non-null address and changes
the header word at `heap_start`. -/
theorem balloc_int_max_not_null :
    WellFormed heap504 [⟨504, false, true⟩] ∧
    total [⟨504, false, true⟩] < 2147483647 ∧
    balloc 8 heap504 2147483647 = some (heapMax, 4294967304) ∧
    heap504.mem heap504.heap_start = 506 ∧ heapMax.mem heap504.heap_start = 507 :=
  ⟨heap504_wf, by decide, rfl, by decide, by decide⟩

/-- C7: the address 4 bytes past the end mark of `heap504` is 8-byte aligned
and lies past the region end, yet `bfree` passes its checks there, overwrites
the last footer and the end mark, and its closing `disp_heap` walk never ends:
the call returns nothing, whatever the fuel. -/
theorem bfree_past_end :
    heap504.heap_start + heap504.alloc_size < 4294967808 ∧ (4294967808 : Int) % 8 = 0 ∧
    heap504.mem 4294967800 = 504 ∧ freeBlock heap504.mem (4294967808 - 4) 4294967800 = -4 ∧
    heap504.mem 4294967804 = 1 ∧ freeBlock heap504.mem (4294967808 - 4) 4294967804 = 0 ∧
    ∀ fuel, bfree fuel heap504 4294967808 = none := by
  refine ⟨by decide, by decide, by decide, by decide, by decide, by decide, ?_⟩
  intro fuel
  rw [bfree_eq (by decide) (by decide) (by decide) (by decide)]
  have hstuck : ∀ fuel c, disp_loop (freeBlock heap504.mem (4294967808 - 4)) fuel 4294967804 c
      = none := disp_loop_stuck (by decide) (by decide)
  have hwalk := disp_loop_none_step (m := freeBlock heap504.mem (4294967808 - 4))
    (a := 4294967300) (by decide) (by decide) hstuck
  have : disp_heap fuel { heap504 with mem := freeBlock heap504.mem (4294967808 - 4) } = none :=
    hwalk fuel 1
  rw [this]

/-- C2: on the well-formed heap `heapC` (a free 8-byte block, then an allocated
496-byte block) `balloc(INT_MAX)` returns the non-null address of the free
block, and the `bfree` of that address that follows never returns: it takes 2
off the header of the next block, and the closing walk runs out of the
region. -/
theorem round_trip_fails_int_max :
    WellFormed heapC [⟨8, false, true⟩, ⟨496, true, false⟩] ∧
    balloc 8 heapC 2147483647 = some (heapD, 4294967304) ∧
    heapC.mem 4294967308 = 497 ∧ freeBlock heapD.mem (4294967304 - 4) 4294967308 = 495 ∧
    ∀ fuel, bfree fuel heapD 4294967304 = none := by
  refine ⟨heapC_wf, rfl, by decide, by decide, ?_⟩
  intro fuel
  rw [bfree_eq (by decide) (by decide) (by decide) (by decide)]
  have hstuck : ∀ fuel c, disp_loop (freeBlock heapD.mem (4294967304 - 4)) fuel 4294968296 c
      = none := disp_loop_stuck (by decide) (by decide)
  have h3 := disp_loop_none_step (m := freeBlock heapD.mem (4294967304 - 4))
    (a := 4294967800) (by decide) (by decide) hstuck
  have h2 := disp_loop_none_step (m := freeBlock heapD.mem (4294967304 - 4))
    (a := 4294967308) (by decide) (by decide) h3
  have h1 := disp_loop_none_step (m := freeBlock heapD.mem (4294967304 - 4))
    (a := 4294967300) (by decide) (by decide) h2
  have : disp_heap fuel { heapD with mem := freeBlock heapD.mem (4294967304 - 4) } = none :=
    h1 fuel 1
  rw [this]

/-! ## init_heap -/

theorem padsize_spec {P s : Int} (hP : 0 < P) (hs : 0 < s) :
    0 ≤ (P - s % P) % P ∧ (P - s % P) % P < P ∧ P ∣ s + (P - s % P) % P ∧
      P ≤ s + (P - s % P) % P := by
  have r0 := Int.emod_nonneg s (ne_of_gt hP)
  have r1 := Int.emod_lt_of_pos s hP
  have hq := Int.ediv_add_emod s P
  have hq0 : 0 ≤ s / P := Int.ediv_nonneg (le_of_lt hs) (le_of_lt hP)
  refine ⟨Int.emod_nonneg _ (ne_of_gt hP), Int.emod_lt_of_pos _ hP, ?_, ?_⟩
  · by_cases hr : s % P = 0
    · rw [hr, Int.sub_zero, Int.emod_self, Int.add_zero]
      exact Int.dvd_of_emod_eq_zero hr
    · have e : (P - s % P) % P = P - s % P := Int.emod_eq_of_lt (by omega) (by omega)
      rw [e]
      refine ⟨s / P + 1, ?_⟩
      rw [Int.mul_add, Int.mul_one]
      omega
  · by_cases hr : s % P = 0
    · rw [hr, Int.sub_zero, Int.emod_self, Int.add_zero]
      exact Int.le_of_dvd hs (Int.dvd_of_emod_eq_zero hr)
    · have e : (P - s % P) % P = P - s % P := Int.emod_eq_of_lt (by omega) (by omega)
      rw [e]
      have : 0 ≤ P * (s / P) := Int.mul_nonneg (le_of_lt hP) hq0
      omega

theorem leastMultiple_eq {P s M : Int} (hP : 0 < P) (hs : 0 < s) (hM : IsLeastMultiple P s M) :
    M = s + (P - s % P) % P := by
  obtain ⟨p1, p2, p3, p4⟩ := padsize_spec hP hs
  obtain ⟨m1, m2, m3⟩ := hM
  have hle := m3 _ p3 (by omega)
  have hd : P ∣ s + (P - s % P) % P - M := Int.dvd_sub p3 m1
  have h0 : (s + (P - s % P) % P - M) % P = 0 := Int.emod_eq_zero_of_dvd hd
  have h1 : (s + (P - s % P) % P - M) % P = s + (P - s % P) % P - M :=
    Int.emod_eq_of_lt (by omega) (by omega)
  omega

theorem env512_real : RealEnv env512 := by
  refine ⟨by decide, by decide, ?_⟩
  intro length hl
  show (if 0 < length then some 4294967296 else none) = none
  rw [if_neg (by omega)]

/-- C10 (init postcondition): on the first call, for a request `s > 0`, a page
size that is a multiple of 8, a successful `open` and a successful `mmap` of the
length `M`, the least multiple of the page size that is at least `s`,
`init_heap` returns 0, sets `alloc_size` to `M - 8` and `heap_start` to the
mapping address plus 4, and leaves one free block: the header word
`alloc_size + 2` at `heap_start`, the footer word `alloc_size` in the last 4
bytes of the block, the end mark 1 right after the block, and a header walk of
exactly one row, free with the previous block marked allocated, of size
`alloc_size`.  The request is an `int`, and the operating system is one that
`RealEnv` admits. -/
theorem init_heap_post (env : Env) (h : Heap) (s ptr M : Int)
    (hfirst : h.allocated_once = 0) (hs : 0 < s) (hsi : s ≤ INT_MAX)
    (hP8 : env.pagesize % 8 = 0) (hreal : RealEnv env)
    (hM : IsLeastMultiple env.pagesize s M)
    (hopen : env.open_ok = true) (hmap : env.mmap (wrap32 M) = some ptr) :
    (init_heap env h s).2 = 0 ∧
    (init_heap env h s).1.alloc_size = M - 8 ∧
    (init_heap env h s).1.heap_start = ptr + 4 ∧
    (init_heap env h s).1.allocated_once = 1 ∧
    (init_heap env h s).1.mem (ptr + 4) = M - 8 + 2 ∧
    (init_heap env h s).1.mem (ptr + 4 + (M - 8) - 4) = M - 8 ∧
    (init_heap env h s).1.mem (ptr + 4 + (M - 8)) = 1 ∧
    disp_heap 2 (init_heap env h s).1 =
      some [⟨1, false, true, ptr + 4, ptr + 4 + (M - 8) - 1, M - 8⟩] := by
  obtain ⟨hP, hPi, hrefuse⟩ := hreal
  unfold INT_MAX at hsi hPi
  have hP0 : 0 < env.pagesize := by omega
  have hMe := leastMultiple_eq hP0 hs hM
  obtain ⟨p1, p2, p3, p4⟩ := padsize_spec hP0 hs
  rw [← hMe] at p3 p4
  have r0 := Int.emod_nonneg s (ne_of_gt hP0)
  have r1 := Int.emod_lt_of_pos s hP0
  have hM8 : M % 8 = 0 :=
    Int.emod_eq_zero_of_dvd (Int.dvd_trans (Int.dvd_of_emod_eq_zero hP8) p3)
  have hwpos : 0 < wrap32 M := by
    by_contra hle
    rw [hrefuse (wrap32 M) (by omega)] at hmap
    exact absurd hmap (by simp)
  have hhi : M ≤ 2147483647 := by
    unfold wrap32 at hwpos
    omega
  have e0 : wrap32 M = M := wrap32_id (by omega) (by omega)
  rw [e0] at hmap
  have e1 : cmod s env.pagesize = s % env.pagesize := cmod_nonneg (by omega) (by omega)
  have e2 : wrap32 (env.pagesize - s % env.pagesize) = env.pagesize - s % env.pagesize :=
    wrap32_id (by omega) (by omega)
  have e3 : cmod (env.pagesize - s % env.pagesize) env.pagesize =
      (env.pagesize - s % env.pagesize) % env.pagesize := cmod_nonneg (by omega) (by omega)
  have e4 : wrap32 (s + (env.pagesize - s % env.pagesize) % env.pagesize) = M := by
    rw [← hMe]; exact e0
  have e5 : wrap32 (M - 8) = M - 8 := wrap32_id (by omega) (by omega)
  have e6 : wrap32 (M - 8 + 2) = M - 8 + 2 := wrap32_id (by omega) (by omega)
  have hne : ¬ (0 ≠ h.allocated_once) := by simp [hfirst]
  have hsn : ¬ s ≤ 0 := by omega
  have a1 : ptr + 4 ≠ ptr + 4 + (M - 8) - 4 := by omega
  have a2 : ptr + 4 + (M - 8) ≠ ptr + 4 + (M - 8) - 4 := by omega
  have a3 : ptr + 4 + (M - 8) ≠ ptr + 4 := by omega
  unfold init_heap
  simp only [hne, hsn, if_false, e1, e2, e3, e4, e5, hopen, hmap, not_true_eq_false]
  have w1 : store (store (store (store
      (fun x => if ptr ≤ x ∧ x < ptr + M then 0 else h.mem x) (ptr + 4 + (M - 8)) 1)
      (ptr + 4) (M - 8)) (ptr + 4)
      (wrap32 (store (store (fun x => if ptr ≤ x ∧ x < ptr + M then 0 else h.mem x)
        (ptr + 4 + (M - 8)) 1) (ptr + 4) (M - 8) (ptr + 4) + 2)))
      (ptr + 4 + (M - 8) - 4) (M - 8) (ptr + 4) = M - 8 + 2 := by
    rw [store_other _ _ a1, store_same, store_same, e6]
  have w2 : store (store (store (store
      (fun x => if ptr ≤ x ∧ x < ptr + M then 0 else h.mem x) (ptr + 4 + (M - 8)) 1)
      (ptr + 4) (M - 8)) (ptr + 4)
      (wrap32 (store (store (fun x => if ptr ≤ x ∧ x < ptr + M then 0 else h.mem x)
        (ptr + 4 + (M - 8)) 1) (ptr + 4) (M - 8) (ptr + 4) + 2)))
      (ptr + 4 + (M - 8) - 4) (M - 8) (ptr + 4 + (M - 8)) = 1 := by
    rw [store_other _ _ a2, store_other _ _ a3, store_other _ _ a3, store_same]
  refine ⟨trivial, trivial, trivial, trivial, w1, ?_, w2, ?_⟩
  · rw [store_same]
  · have hch : Chain (store (store (store (store
        (fun x => if ptr ≤ x ∧ x < ptr + M then 0 else h.mem x) (ptr + 4 + (M - 8)) 1)
        (ptr + 4) (M - 8)) (ptr + 4)
        (wrap32 (store (store (fun x => if ptr ≤ x ∧ x < ptr + M then 0 else h.mem x)
          (ptr + 4 + (M - 8)) 1) (ptr + 4) (M - 8) (ptr + 4) + 2)))
        (ptr + 4 + (M - 8) - 4) (M - 8)) (ptr + 4) [⟨M - 8, false, true⟩]
        (ptr + 4 + (M - 8)) := by
      refine ⟨?_, ?_, ?_, rfl⟩
      · rw [w1]; simp [enc]
      · show 8 ≤ M - 8
        omega
      · show (M - 8) % 8 = 0
        omega
    exact disp_loop_chain w2 _ _ 1 2 hch (by omega) (by simp)

theorem init_heap_post_witness :
    RealEnv env512 ∧ IsLeastMultiple env512.pagesize 512 512 ∧
    (init_heap env512 heap0 512).2 = 0 ∧
    (init_heap env512 heap0 512).1.alloc_size = 512 - 8 ∧
    (init_heap env512 heap0 512).1.heap_start = 4294967296 + 4 ∧
    (init_heap env512 heap0 512).1.allocated_once = 1 ∧
    (init_heap env512 heap0 512).1.mem (4294967296 + 4) = 512 - 8 + 2 ∧
    (init_heap env512 heap0 512).1.mem (4294967296 + 4 + (512 - 8) - 4) = 512 - 8 ∧
    (init_heap env512 heap0 512).1.mem (4294967296 + 4 + (512 - 8)) = 1 ∧
    disp_heap 2 (init_heap env512 heap0 512).1 =
      some [⟨1, false, true, 4294967296 + 4, 4294967296 + 4 + (512 - 8) - 1, 512 - 8⟩] :=
  ⟨env512_real, ⟨dvd_refl _, le_refl _, fun _ _ hk => hk⟩,
    init_heap_post env512 heap0 512 4294967296 512 rfl (by decide) (by decide) (by decide)
      env512_real ⟨dvd_refl _, le_refl _, fun _ _ hk => hk⟩ rfl rfl⟩

/-! ## The placement step on a chain -/

theorem Tags_append {m : Int → Int} {a : Int} {pa : Bool} {xs ys : List Block} :
    Tags m a pa (xs ++ ys) ↔ Tags m a pa xs ∧ Tags m (a + total xs) (lastAlloc pa xs) ys := by
  induction xs generalizing a pa with
  | nil => simp [Tags, total, lastAlloc]
  | cons b bs ih =>
    have e1 : a + (b.size + total bs) = a + b.size + total bs := by omega
    show (b.palloc = pa ∧ (b.alloc = false → pa = true ∧ m (a + b.size - 4) = b.size) ∧
      Tags m (a + b.size) b.alloc (bs ++ ys)) ↔ _
    rw [ih]
    simp only [Tags, total, lastAlloc, e1]
    tauto

theorem placeBlocks_length (size : Int) (pre : List Block) (b : Block) (post : List Block) :
    (placeBlocks size pre b post).length ≤ (pre ++ b :: post).length + 1 := by
  unfold placeBlocks
  split_ifs
  · simp only [List.length_append, List.length_cons]; omega
  · cases post <;> simp [setPrev]

theorem place_chain {m : Int → Int} {hs e size : Int} {pre post : List Block} {b : Block}
    (hc : Chain m hs (pre ++ b :: post) e) (he : m e = 1)
    (ht : Tags m hs true (pre ++ b :: post)) (hbd : e - hs ≤ 2147483640)
    (hfree : b.alloc = false) (h8 : 8 ≤ size) (hle : size ≤ b.size) (hm8 : size % 8 = 0) :
    Chain (place m (hs + total pre) b.size size) hs (placeBlocks size pre b post) e ∧
      place m (hs + total pre) b.size size e = 1 := by
  obtain ⟨c1, c2, c3, c4, c5, c6, c7, cpre, cpost⟩ := Chain_size_le hc
  have hhdr := @place_header m (hs + total pre) size b c1 hfree c2 (by omega) c3 hm8 hle
    (by omega) (Or.inl h8)
  have eb := enc_bounds b
  have e1 : wrap32 (enc b + 1) = enc b + 1 := wrap32_id (by omega) (by omega)
  have ed : wrap32 (b.size - size) = b.size - size := wrap32_id (by omega) (by omega)
  by_cases hsplit : 8 ≤ b.size - size
  · -- the block is split
    have hcond : 8 ≤ size ∧ 8 ≤ b.size - size := ⟨h8, hsplit⟩
    simp only [hcond, and_self, if_true] at hhdr
    have hpl : ∀ x, x ≠ hs + total pre → x ≠ hs + total pre + size →
        x ≠ hs + total pre + b.size - 4 → place m (hs + total pre) b.size size x = m x := by
      intro x x1 x2 x3
      unfold place
      have : b.size - size ≥ 8 := by omega
      simp only [ed, this, if_true]
      have x3' : x ≠ hs + total pre + size + (b.size - size) - 4 := by omega
      rw [store_other _ _ x3', store_other _ _ x1, store_other _ _ x2, store_other _ _ x1]
    have hnew : place m (hs + total pre) b.size size (hs + total pre + size) =
        enc ⟨b.size - size, false, true⟩ := by
      unfold place
      have : b.size - size ≥ 8 := by omega
      simp only [ed, this, if_true]
      have x3' : hs + total pre + size ≠ hs + total pre + size + (b.size - size) - 4 := by
        omega
      have x1 : hs + total pre + size ≠ hs + total pre := by omega
      rw [store_other _ _ x3', store_other _ _ x1, store_same]
      rw [wrap32_id (by omega) (by omega)]
      simp [enc]
    refine ⟨?_, ?_⟩
    · unfold placeBlocks
      simp only [hsplit, if_true]
      refine Chain_append.mpr ⟨Chain_congr (fun x _ hx => hpl x (by omega) (by omega) (by omega))
        cpre, hhdr, h8, hm8, hnew, hsplit, (by show (b.size - size) % 8 = 0; omega), ?_⟩
      have ea : hs + total pre + size + (b.size - size) = hs + total pre + b.size := by omega
      show Chain _ (hs + total pre + size + (b.size - size)) post e
      rw [ea]
      exact Chain_congr (fun x hx _ => hpl x (by omega) (by omega) (by omega)) cpost
    · rw [hpl e (by omega) (by omega) (by omega)]; exact he
  · -- the block is taken whole
    have hsz : size = b.size := by omega
    have hcond : ¬ (8 ≤ size ∧ 8 ≤ b.size - size) := fun h => hsplit h.2
    simp only [hcond, if_false] at hhdr
    subst hsz
    have hpl : ∀ x, x ≠ hs + total pre → x ≠ hs + total pre + b.size →
        place m (hs + total pre) b.size b.size x = m x := by
      intro x x1 x2
      unfold place
      have : ¬ b.size - b.size ≥ 8 := by omega
      simp only [ed, this, if_false]
      split_ifs
      · rw [store_other _ _ x2, store_other _ _ x1]
      · rw [store_other _ _ x1]
    have hnext : place m (hs + total pre) b.size b.size (hs + total pre + b.size) =
        if m (hs + total pre + b.size) ≠ 1 then wrap32 (m (hs + total pre + b.size) + 2)
        else m (hs + total pre + b.size) := by
      unfold place
      have : ¬ b.size - b.size ≥ 8 := by omega
      have x1 : hs + total pre + b.size ≠ hs + total pre := by omega
      simp only [ed, this, if_false, store_other _ _ x1]
      split_ifs
      · rw [store_same]
      · rw [store_other _ _ x1]
    unfold placeBlocks
    simp only [hsplit, if_false]
    cases post with
    | nil =>
      simp only [Chain] at cpost
      simp only [setPrev]
      have hone : place m (hs + total pre) b.size b.size e = 1 := by
        rw [← cpost, hnext, cpost, he]; simp
      refine ⟨Chain_append.mpr ⟨Chain_congr (fun x _ hx => hpl x (by omega) (by omega)) cpre,
        hhdr, c2, c3, ?_⟩, hone⟩
      exact cpost
    | cons nx rest =>
      obtain ⟨q1, q2, q3, q4⟩ := cpost
      have hq := Chain_end q4
      have hqg := Chain_total_ge q4
      have htag := (Tags_append.mp ht).2
      obtain ⟨-, -, t3⟩ := htag
      obtain ⟨t4, -, -⟩ := t3
      rw [hfree] at t4
      have hne : m (hs + total pre + b.size) ≠ 1 := by rw [q1]; exact enc_ne_one nx q2
      have enx := enc_bounds nx
      have hnx : place m (hs + total pre) b.size b.size (hs + total pre + b.size) =
          enc { nx with palloc := true } := by
        rw [hnext, if_pos hne, q1, wrap32_id (by omega) (by omega)]
        simp only [enc, t4]
        simp
        omega
      refine ⟨Chain_append.mpr ⟨Chain_congr (fun x _ hx => hpl x (by omega) (by omega)) cpre,
        hhdr, c2, c3, hnx, q2, q3, ?_⟩, ?_⟩
      · show Chain _ (hs + total pre + b.size + nx.size) rest e
        exact Chain_congr (fun x hx _ => hpl x (by omega) (by omega)) q4
      · rw [hpl e (by omega) (by omega)]; exact he

/-! ## Best fit -/

theorem Chain_mem_size {m : Int → Int} {a e : Int} {bs : List Block} {x : Block}
    (h : Chain m a bs e) (hx : x ∈ bs) : 8 ≤ x.size ∧ x.size ≤ e - a := by
  obtain ⟨s, t, rfl⟩ := List.append_of_mem hx
  obtain ⟨_, c2, _, c4, _, c6, c7, _, _⟩ := Chain_size_le h
  exact ⟨c2, by omega⟩

/-- On a well-formed heap the walk of `disp_heap` ends and prints the rows of the
block list. -/
theorem disp_heap_rows {fuel : Nat} {h : Heap} {bs : List Block} (hwf : WellFormed h bs)
    (hf : bs.length < fuel) : disp_heap fuel h = some (rowsOf h.heap_start 1 bs) := by
  have hbd := hwf.bound
  obtain ⟨_, _, _, hc, he, _⟩ := hwf
  exact disp_loop_chain he bs _ 1 fuel hc hbd hf

/-- C3 (best fit): on a well-formed heap, for a request `n ≥ 1` whose size with
header, rounded up to a multiple of 8, fits some free block, `balloc` returns
the payload address (header address plus 4) of the best-fit block: the free
block of least size among those that are large enough, and the first of them in
address order. -/
theorem balloc_best_fit (fuel : Nat) (h : Heap) (bs : List Block) (n : Int)
    (hwf : WellFormed h bs) (hn : 1 ≤ n) (hfuel : bs.length + 1 < fuel)
    (hex : ∃ x ∈ bs, x.alloc = false ∧ (n + 11) / 8 * 8 ≤ x.size) :
    ∃ pre b post h2, IsBest ((n + 11) / 8 * 8) bs pre b post ∧
      balloc fuel h n = some (h2, h.heap_start + total pre + 4) := by
  have hbd := hwf.bound
  have hwf' := hwf
  obtain ⟨hpos, hal, hmax, hc, he, ht⟩ := hwf
  obtain ⟨x, hx, hxf, hxs⟩ := hex
  have hxb := Chain_mem_size hc hx
  have hnr : n ≤ INT_MAX - 11 := by unfold INT_MAX; omega
  have hnd := needed_eq hn hnr
  obtain ⟨r, hr⟩ := @scan_total h.mem (h.heap_start + h.alloc_size) (needed n) he bs h.heap_start 0 INT_MAX fuel hc hbd
    (by omega)
  obtain ⟨best, bsz⟩ := r
  rcases scan_spec he bs _ 0 INT_MAX fuel best bsz hc hbd (by rw [hnd]; unfold INT_MAX; omega)
    hr with hA | hB
  · have := hA.2.2 x hx hxf (by rw [hnd]; exact hxs)
    unfold INT_MAX at this
    omega
  · obtain ⟨pre, b, post, hbest, hre, hrs, _⟩ := hB
    have hbest' := hbest
    obtain ⟨hb1, hfree, hle, _, _⟩ := hbest
    subst hb1
    obtain ⟨c1, c2, c3, c4, c5, c6, c7, _, _⟩ := Chain_size_le hc
    have hpc := place_chain hc he ht hbd hfree (by rw [hnd]; omega) hle (by rw [hnd]; omega)
    have hlen := placeBlocks_length (needed n) pre b post
    have hdisp := disp_loop_chain hpc.2 _ h.heap_start 1 fuel hpc.1 hbd (by omega)
    have h1 : ¬ n < 1 := by omega
    have h0 : ¬ h.heap_start + total pre = 0 := by omega
    have key : balloc fuel h n =
        some (⟨h.heap_start, h.alloc_size, h.allocated_once,
          place h.mem (h.heap_start + total pre) b.size (needed n)⟩,
          h.heap_start + total pre + 4) := by
      unfold balloc
      simp only [h1, if_false, hr, h0, disp_heap, hre, hrs, hdisp]
    exact ⟨pre, b, post, _, by rw [← hnd]; exact hbest', key⟩

theorem heapF_wf : WellFormed heapF blocksF := by decide

theorem balloc_best_fit_witness :
    WellFormed heapF blocksF ∧
    (∃ pre b post h2, IsBest ((20 + 11) / 8 * 8) blocksF pre b post ∧
      balloc 10 heapF 20 = some (h2, heapF.heap_start + total pre + 4)) ∧
    balloc 10 heapF 20 = some (heapG, 4294967300 + (16 + 8 + 40 + 8) + 4) :=
  ⟨heapF_wf,
    balloc_best_fit 10 heapF blocksF 20 heapF_wf (by decide) (by decide)
      ⟨⟨40, false, true⟩, by decide, rfl, by decide⟩,
    rfl⟩

/-! ## The steps of bfree on memory -/

theorem markFree_spec (m : Int → Int) (c s : Int) (hs : 8 ≤ s) :
    markFree m c s c = wrap32 (m c - 1) ∧ markFree m c s (c + s - 4) = s ∧
    markFree m c s (c + s) =
      (if m (c + s) ≠ 1 then wrap32 (m (c + s) - 2) else m (c + s)) ∧
    ∀ x, x ≠ c → x ≠ c + s - 4 → x ≠ c + s → markFree m c s x = m x := by
  have a1 : c + s - 4 + 4 = c + s := by omega
  have n1 : c ≠ c + s - 4 := by omega
  have n2 : c ≠ c + s := by omega
  have n3 : c + s ≠ c := by omega
  have n4 : c + s ≠ c + s - 4 := by omega
  have n5 : c + s - 4 ≠ c + s := by omega
  have hn : store (store m c (wrap32 (m c - 1))) (c + s - 4) s (c + s) = m (c + s) := by
    rw [store_other _ _ n4, store_other _ _ n3]
  unfold markFree
  simp only [a1, hn]
  refine ⟨?_, ?_, ?_, ?_⟩
  · split_ifs
    · rw [store_other _ _ n2, store_other _ _ n1, store_same]
    · rw [store_other _ _ n1, store_same]
  · split_ifs
    · rw [store_other _ _ n5, store_same]
    · rw [store_same]
  · split_ifs
    · rw [store_same]
    · rw [store_other _ _ n4, store_other _ _ n3]
  · intro x x1 x2 x3
    split_ifs
    · rw [store_other _ _ x3, store_other _ _ x2, store_other _ _ x1]
    · rw [store_other _ _ x2, store_other _ _ x1]

theorem mergeNext_skip (M : Int → Int) (c s : Int) (h : aBit (M (c + s)) = true) :
    mergeNext M c s = (M, s) := by
  have a1 : c + s - 4 + 4 = c + s := by omega
  unfold mergeNext
  simp only [a1, h, not_true_eq_false, if_false]

theorem mergeNext_merge (M : Int → Int) (c s t j : Int) (h : aBit (M (c + s)) = false)
    (ht : M (c + s) = t) (hj : (if pBit (M c) then 2 else 0) = j) (hs : 8 ≤ s) (h0 : 0 ≤ t) :
    mergeNext M c s =
      (store (store M c (wrap32 (wrap32 (t + s) + j))) (c + s + t - 4) (wrap32 (t + s)),
        wrap32 (wrap32 (wrap32 (t + s) + j) - j)) := by
  have a1 : c + s - 4 + 4 = c + s := by omega
  have n3 : c + s ≠ c := by omega
  have n6 : c ≠ c + s + t - 4 := by omega
  have h' : aBit t = false := by rw [← ht]; exact h
  unfold mergeNext
  simp only [a1, h', Bool.false_eq_true, not_false_eq_true, if_true, ht, hj,
    store_other _ _ n3, store_other _ _ n6, store_same]

theorem mergePrev_skip (M : Int → Int) (c cs nf : Int) (h : pBit (M c) = true) :
    mergePrev M c cs nf = M := by
  unfold mergePrev
  simp only [h, not_true_eq_false, if_false]

theorem mergePrev_merge (M : Int → Int) (c cs nf ps i : Int) (h : pBit (M c) = false)
    (hp : M (c - 4) = ps) (hi : (if pBit (M (c - ps)) then 2 else 0) = i) :
    mergePrev M c cs nf =
      store (store M (c - ps) (wrap32 (wrap32 (cs + ps) + i))) nf (wrap32 (cs + ps)) := by
  unfold mergePrev
  simp only [h, Bool.false_eq_true, not_false_eq_true, if_true, hp, hi]

theorem freeBlock_unfold (m : Int → Int) (c s : Int) (b : Block) (h1 : m c = enc b)
    (hal : b.alloc = true) (hs : b.size = s) (h8 : 8 ≤ s) (hb : s ≤ 2147483640)
    (hm : s % 8 = 0) :
    freeBlock m c =
      mergePrev (mergeNext (markFree m c s) c s).1 c (mergeNext (markFree m c s) c s).2
        (c + s - 4) := by
  have hp := pBit_enc b (by omega)
  have hsz : (if pBit (m c) then wrap32 (wrap32 (m c - 2) - 1) else wrap32 (m c - 1)) = s := by
    rw [h1, hp]
    unfold enc wrap32
    rw [hal]
    cases b.palloc <;> simp <;> omega
  unfold freeBlock
  simp only [hsz]

/-! ## The steps of bfree on chains -/

theorem mergeBack_concat (pre : List Block) (pv cb : Block) (post : List Block)
    (h : cb.palloc = false) :
    mergeBack (pre ++ [pv]) cb post = pre ++ ⟨pv.size + cb.size, false, pv.palloc⟩ :: post := by
  unfold mergeBack
  simp [h]

theorem exists_concat (pre : List Block) : pre = [] ∨ ∃ pre2 pv, pre = pre2 ++ [pv] := by
  by_cases h : pre = []
  · exact Or.inl h
  · exact Or.inr ⟨pre.dropLast, pre.getLast h, (List.dropLast_append_getLast h).symm⟩

theorem lastAlloc_false {pre : List Block} (h : lastAlloc true pre = false) :
    ∃ pre2 pv, pre = pre2 ++ [pv] ∧ pv.alloc = false := by
  rcases exists_concat pre with rfl | ⟨pre2, pv, rfl⟩
  · simp [lastAlloc] at h
  · refine ⟨pre2, pv, rfl, ?_⟩
    rw [lastAlloc_append] at h
    simpa [lastAlloc] using h

theorem enc_clear_a (b : Block) (hal : b.alloc = true) :
    enc b - 1 = enc ⟨b.size, false, b.palloc⟩ := by
  unfold enc; rw [hal]; simp

theorem enc_clear_p (b : Block) (hp : b.palloc = true) :
    enc b - 2 = enc ⟨b.size, b.alloc, false⟩ := by
  unfold enc; rw [hp]; simp; omega

theorem enc_free (s : Int) (p : Bool) : enc ⟨s, false, p⟩ = s + if p then 2 else 0 := by
  unfold enc; simp

theorem freeBlocks_length (pre : List Block) (cur : Block) (post : List Block) :
    (freeBlocks pre cur post).length ≤ (pre ++ cur :: post).length := by
  have h1 : (fwdRest post).length ≤ post.length := by
    cases post with
    | nil => simp [fwdRest]
    | cons nx rest => simp only [fwdRest]; split_ifs <;> simp
  unfold freeBlocks
  cases hp : (fwdBlock cur post).palloc
  · rcases exists_concat pre with rfl | ⟨pre2, pv, rfl⟩
    · unfold mergeBack
      simp only [hp, Bool.false_eq_true, if_false, List.getLast?_nil, List.nil_append,
        List.length_cons]
      omega
    · rw [mergeBack_concat _ _ _ _ hp]
      simp only [List.length_append, List.length_cons, List.length_nil]
      omega
  · unfold mergeBack
    simp only [hp, if_true, List.length_append, List.length_cons]
    omega

theorem forward_chain {m : Int → Int} {hs e : Int} {pre post : List Block} {cur : Block}
    (hc : Chain m hs (pre ++ cur :: post) e) (he : m e = 1)
    (ht : Tags m hs true (pre ++ cur :: post)) (hbd : e - hs ≤ 2147483640)
    (hal : cur.alloc = true) :
    Chain (mergeNext (markFree m (hs + total pre) cur.size) (hs + total pre) cur.size).1 hs
      (pre ++ fwdBlock cur post :: fwdRest post) e ∧
    (mergeNext (markFree m (hs + total pre) cur.size) (hs + total pre) cur.size).1 e = 1 ∧
    (mergeNext (markFree m (hs + total pre) cur.size) (hs + total pre) cur.size).2 =
      (fwdBlock cur post).size ∧
    (∀ x, x < hs + total pre →
      (mergeNext (markFree m (hs + total pre) cur.size) (hs + total pre) cur.size).1 x = m x) ∧
    cur.size ≤ (fwdBlock cur post).size ∧ (fwdBlock cur post).alloc = false ∧
    (fwdBlock cur post).palloc = cur.palloc := by
  obtain ⟨c1, c2, c3, c4, c5, c6, c7, cpre, cpost⟩ := Chain_size_le hc
  obtain ⟨k1, k2, k3, k4⟩ := markFree_spec m (hs + total pre) cur.size c2
  have eb := enc_bounds cur
  have hcur : markFree m (hs + total pre) cur.size (hs + total pre) =
      enc ⟨cur.size, false, cur.palloc⟩ := by
    rw [k1, c1, wrap32_id (by omega) (by omega), enc_clear_a cur hal]
  cases post with
  | nil =>
    simp only [Chain] at cpost
    have hn : markFree m (hs + total pre) cur.size (hs + total pre + cur.size) = 1 := by
      rw [k3, cpost, he]; simp
    have hab : aBit (markFree m (hs + total pre) cur.size (hs + total pre + cur.size)) = true := by
      rw [hn]; decide
    rw [mergeNext_skip _ _ _ hab]
    simp only [fwdBlock, fwdRest]
    refine ⟨Chain_append.mpr ⟨Chain_congr (fun x _ hx => k4 x (by omega) (by omega) (by omega))
      cpre, hcur, c2, c3, cpost⟩, by rw [← cpost]; exact hn, trivial,
      fun x hx => k4 x (by omega) (by omega) (by omega), le_refl _, trivial, trivial⟩
  | cons nx rest =>
    obtain ⟨q1, q2, q3, q4⟩ := cpost
    have hq := Chain_end q4
    have hqg := Chain_total_ge q4
    obtain ⟨-, -, t3⟩ := (Tags_append.mp ht).2
    obtain ⟨t4, -, -⟩ := t3
    rw [hal] at t4
    have enx := enc_bounds nx
    have hne : m (hs + total pre + cur.size) ≠ 1 := by rw [q1]; exact enc_ne_one nx q2
    have hnx : markFree m (hs + total pre) cur.size (hs + total pre + cur.size) =
        enc ⟨nx.size, nx.alloc, false⟩ := by
      rw [k3, if_pos hne, q1, wrap32_id (by omega) (by omega), enc_clear_p nx t4]
    cases hna : nx.alloc
    · -- the next block is free: merge
      have hab : aBit (markFree m (hs + total pre) cur.size (hs + total pre + cur.size))
          = false := by
        rw [hnx, aBit_enc ⟨nx.size, nx.alloc, false⟩ q3]; exact hna
      have hval : markFree m (hs + total pre) cur.size (hs + total pre + cur.size) = nx.size := by
        rw [hnx, hna]; simp [enc]
      have hj : (if pBit (markFree m (hs + total pre) cur.size (hs + total pre)) then (2 : Int)
          else 0) = if cur.palloc then 2 else 0 := by
        rw [hcur, pBit_enc ⟨cur.size, false, cur.palloc⟩ c3]
      rw [mergeNext_merge _ _ _ _ _ hab hval hj c2 (by omega)]
      simp only [fwdBlock, fwdRest, hna, Bool.false_eq_true, if_false]
      have w1 : wrap32 (nx.size + cur.size) = nx.size + cur.size := wrap32_id (by omega) (by omega)
      have w2 : wrap32 (nx.size + cur.size + if cur.palloc then 2 else 0) =
          enc ⟨cur.size + nx.size, false, cur.palloc⟩ := by
        rw [wrap32_id (by split_ifs <;> omega) (by split_ifs <;> omega), enc_free]
        omega
      have w3 : wrap32 (enc ⟨cur.size + nx.size, false, cur.palloc⟩ -
          if cur.palloc then 2 else 0) = cur.size + nx.size := by
        rw [enc_free, wrap32_id (by split_ifs <;> omega) (by split_ifs <;> omega)]
        omega
      simp only [w1, w2, w3]
      have n6 : hs + total pre ≠ hs + total pre + cur.size + nx.size - 4 := by omega
      have hfr : ∀ x, x ≠ hs + total pre → x ≠ hs + total pre + cur.size - 4 →
          x ≠ hs + total pre + cur.size → x ≠ hs + total pre + cur.size + nx.size - 4 →
          store (store (markFree m (hs + total pre) cur.size) (hs + total pre)
            (enc ⟨cur.size + nx.size, false, cur.palloc⟩))
            (hs + total pre + cur.size + nx.size - 4) (nx.size + cur.size) x = m x := by
        intro x x1 x2 x3 x4
        rw [store_other _ _ x4, store_other _ _ x1, k4 x x1 x2 x3]
      refine ⟨Chain_append.mpr ⟨Chain_congr (fun x _ hx => hfr x (by omega) (by omega) (by omega)
        (by omega)) cpre, ?_, (by show 8 ≤ cur.size + nx.size; omega),
        (by show (cur.size + nx.size) % 8 = 0; omega), ?_⟩, ?_,
        trivial, fun x hx => hfr x (by omega) (by omega) (by omega) (by omega),
        (by show cur.size ≤ cur.size + nx.size; omega), trivial, trivial⟩
      · rw [store_other _ _ n6, store_same]
      · show Chain _ (hs + total pre + (cur.size + nx.size)) rest e
        have ea : hs + total pre + (cur.size + nx.size) = hs + total pre + cur.size + nx.size := by
          omega
        rw [ea]
        exact Chain_congr (fun x hx _ => hfr x (by omega) (by omega) (by omega) (by omega)) q4
      · rw [hfr e (by omega) (by omega) (by omega) (by omega)]; exact he
    · -- the next block is allocated: clear its p-bit
      have hab : aBit (markFree m (hs + total pre) cur.size (hs + total pre + cur.size))
          = true := by
        rw [hnx, aBit_enc ⟨nx.size, nx.alloc, false⟩ q3]; exact hna
      rw [mergeNext_skip _ _ _ hab]
      simp only [fwdBlock, fwdRest, hna, if_true]
      rw [hna] at hnx
      refine ⟨Chain_append.mpr ⟨Chain_congr (fun x _ hx => k4 x (by omega) (by omega) (by omega))
        cpre, hcur, c2, c3, hnx, q2, q3, ?_⟩, ?_, trivial,
        fun x hx => k4 x (by omega) (by omega) (by omega), le_refl _, trivial, trivial⟩
      · show Chain _ (hs + total pre + cur.size + nx.size) rest e
        exact Chain_congr (fun x hx _ => k4 x (by omega) (by omega) (by omega)) q4
      · rw [k4 e (by omega) (by omega) (by omega)]; exact he

theorem backward_chain {M m : Int → Int} {hs e cs nf : Int} {pre post : List Block} {cb : Block}
    (hc : Chain M hs (pre ++ cb :: post) e) (he : M e = 1)
    (hM : ∀ x, x < hs + total pre → M x = m x) (ht : Tags m hs true pre)
    (hlast : cb.palloc = lastAlloc true pre) (hfree : cb.alloc = false)
    (hnf1 : hs + total pre < nf) (hnf2 : nf < hs + total pre + cb.size)
    (hcs : cs = cb.size) (hbd : e - hs ≤ 2147483640) :
    Chain (mergePrev M (hs + total pre) cs nf) hs (mergeBack pre cb post) e ∧
    mergePrev M (hs + total pre) cs nf e = 1 ∧
    aBit (mergePrev M (hs + total pre) cs nf (hs + total pre)) = false := by
  obtain ⟨c1, c2, c3, c4, c5, c6, c7, cpre, cpost⟩ := Chain_size_le hc
  have hab : aBit (M (hs + total pre)) = false := by rw [c1, aBit_enc _ c3]; exact hfree
  have hpb : pBit (M (hs + total pre)) = cb.palloc := by rw [c1, pBit_enc _ c3]
  cases hp : cb.palloc
  · -- the block before is free: merge
    rw [hp] at hpb
    obtain ⟨pre2, pv, rfl, hpv⟩ := lastAlloc_false (by rw [← hlast]; exact hp)
    obtain ⟨t1, t2⟩ := Tags_append.mp ht
    obtain ⟨-, t3, -⟩ := t2
    have t4 := (t3 hpv).2
    rw [List.append_assoc] at hc
    obtain ⟨d1, d2, d3, d4, d5, d6, d7, dpre, dpost⟩ := Chain_size_le hc
    rw [total_append] at *
    simp only [total, Int.add_zero] at *
    have hfoot : M (hs + (total pre2 + pv.size) - 4) = pv.size := by
      rw [hM _ (by omega)]
      have : hs + (total pre2 + pv.size) - 4 = hs + total pre2 + pv.size - 4 := by omega
      rw [this]; exact t4
    have hpa : hs + (total pre2 + pv.size) - pv.size = hs + total pre2 := by omega
    have hi : (if pBit (M (hs + (total pre2 + pv.size) - pv.size)) then (2 : Int) else 0) =
        if pv.palloc then 2 else 0 := by
      rw [hpa, d1, pBit_enc _ d3]
    rw [mergePrev_merge _ _ _ _ _ _ hpb hfoot hi, mergeBack_concat _ _ _ _ hp, hpa, hcs]
    have w1 : wrap32 (cb.size + pv.size) = cb.size + pv.size := wrap32_id (by omega) (by omega)
    have w2 : wrap32 (cb.size + pv.size + if pv.palloc then 2 else 0) =
        enc ⟨pv.size + cb.size, false, pv.palloc⟩ := by
      rw [wrap32_id (by split_ifs <;> omega) (by split_ifs <;> omega), enc_free]
      omega
    simp only [w1, w2]
    have n1 : hs + total pre2 ≠ nf := by omega
    have n2 : hs + (total pre2 + pv.size) ≠ nf := by omega
    have n3 : hs + (total pre2 + pv.size) ≠ hs + total pre2 := by omega
    have hfr : ∀ x, x ≠ hs + total pre2 → x ≠ nf →
        store (store M (hs + total pre2) (enc ⟨pv.size + cb.size, false, pv.palloc⟩)) nf
          (cb.size + pv.size) x = M x := by
      intro x x1 x2
      rw [store_other _ _ x2, store_other _ _ x1]
    refine ⟨Chain_append.mpr ⟨Chain_congr (fun x _ hx => hfr x (by omega) (by omega)) dpre, ?_,
      (by show 8 ≤ pv.size + cb.size; omega), (by show (pv.size + cb.size) % 8 = 0; omega), ?_⟩,
      ?_, ?_⟩
    · rw [store_other _ _ n1, store_same]
    · show Chain _ (hs + total pre2 + (pv.size + cb.size)) post e
      have ea : hs + total pre2 + (pv.size + cb.size) = hs + (total pre2 + pv.size) + cb.size := by
        omega
      rw [ea]
      exact Chain_congr (fun x hx _ => hfr x (by omega) (by omega)) cpost
    · rw [hfr e (by omega) (by omega)]; exact he
    · rw [hfr _ n3 n2]; exact hab
  · -- the block before is allocated: nothing to do
    rw [hp] at hpb
    rw [mergePrev_skip _ _ _ _ hpb]
    unfold mergeBack
    simp only [hp, if_true]
    exact ⟨hc, he, hab⟩

/-- The memory that `bfree` leaves, on a well-formed heap and for the payload
address of an allocated block: its headers form the chain of `freeBlocks`, the
end mark is in place, and the header of the freed block has its a-bit clear. -/
theorem freeBlock_chain {h : Heap} {pre post : List Block} {cur : Block}
    (hwf : WellFormed h (pre ++ cur :: post)) (hal : cur.alloc = true) :
    Chain (freeBlock h.mem (h.heap_start + total pre)) h.heap_start (freeBlocks pre cur post)
      (h.heap_start + h.alloc_size) ∧
    freeBlock h.mem (h.heap_start + total pre) (h.heap_start + h.alloc_size) = 1 ∧
    aBit (freeBlock h.mem (h.heap_start + total pre) (h.heap_start + total pre)) = false := by
  have hbd := hwf.bound
  obtain ⟨hpos, ha, hmax, hc, he, ht⟩ := hwf
  obtain ⟨c1, c2, c3, c4, c5, c6, c7, cpre, cpost⟩ := Chain_size_le hc
  obtain ⟨f1, f2, f3, f4, f5, f6, f7⟩ := forward_chain hc he ht hbd hal
  obtain ⟨t1, t2⟩ := Tags_append.mp ht
  obtain ⟨t3, -, -⟩ := t2
  rw [freeBlock_unfold h.mem _ cur.size cur c1 hal rfl c2 (by omega) c3]
  unfold freeBlocks
  exact backward_chain f1 f2 f4 t1 (by rw [f7, t3]) f6 (by omega) (by omega) f3 hbd

/-- C8 (double release): on a well-formed heap, `bfree` of the payload address
of an allocated block returns 0, and a second `bfree` of the same address right
after returns -1 and leaves the state exactly as the first call left it. -/
theorem bfree_twice (fuel : Nat) (h : Heap) (pre post : List Block) (cur : Block)
    (hwf : WellFormed h (pre ++ cur :: post)) (hal : cur.alloc = true)
    (hfuel : (pre ++ cur :: post).length < fuel) :
    ∃ h1, bfree fuel h (h.heap_start + total pre + 4) = some (h1, 0) ∧
      bfree fuel h1 (h.heap_start + total pre + 4) = some (h1, -1) := by
  have hbd := hwf.bound
  obtain ⟨k1, k2, k3⟩ := freeBlock_chain hwf hal
  obtain ⟨hpos, ha, hmax, hc, he, ht⟩ := hwf
  obtain ⟨c1, c2, c3, c4, c5, c6, c7, cpre, cpost⟩ := Chain_size_le hc
  have e4 : h.heap_start + total pre + 4 - 4 = h.heap_start + total pre := by omega
  have hlen := freeBlocks_length pre cur post
  have hdisp := disp_loop_chain k2 _ h.heap_start 1 fuel k1 hbd (by omega)
  have hab : aBit (h.mem (h.heap_start + total pre + 4 - 4)) = true := by
    rw [e4, c1, aBit_enc _ c3]; exact hal
  have p1 : h.heap_start + total pre + 4 ≠ 0 := by omega
  have p2 : (h.heap_start + total pre + 4) % 8 = 0 := by omega
  have p3 : h.heap_start + total pre + 4 ≤ h.heap_start + 4 * h.alloc_size := by omega
  refine ⟨⟨h.heap_start, h.alloc_size, h.allocated_once,
    freeBlock h.mem (h.heap_start + total pre)⟩, ?_, ?_⟩
  · rw [bfree_eq p1 p2 p3 hab, e4]
    simp only [disp_heap, hdisp]
  · unfold bfree
    have p3' : ¬ h.heap_start + total pre + 4 > h.heap_start + 4 * h.alloc_size := by omega
    simp only [p1, p2, p3', e4, k3, if_false, ne_eq, not_true_eq_false, Bool.false_eq_true,
      not_false_eq_true, if_true]

theorem bfree_twice_witness :
    WellFormed heapA ([] ++ ⟨32, true, true⟩ :: [⟨472, false, true⟩]) ∧
    ∃ h1, bfree 8 heapA (heapA.heap_start + total [] + 4) = some (h1, 0) ∧
      bfree 8 h1 (heapA.heap_start + total [] + 4) = some (h1, -1) :=
  ⟨heapA_wf, bfree_twice 8 heapA [] [⟨472, false, true⟩] ⟨32, true, true⟩ heapA_wf rfl
    (by decide)⟩

/-! ## Requests whose size does not overflow -/

theorem Tags_congr {m m2 : Int → Int} {a e : Int} {pa : Bool} {bs : List Block}
    (hm : ∀ x, a ≤ x → x < e → m2 x = m x) (hc : Chain m a bs e) (h : Tags m a pa bs) :
    Tags m2 a pa bs := by
  induction bs generalizing a pa with
  | nil => trivial
  | cons b bs ih =>
    obtain ⟨h1, h2, h3, h4⟩ := hc
    obtain ⟨t1, t2, t3⟩ := h
    have hend := Chain_end h4
    have hge := Chain_total_ge h4
    refine ⟨t1, fun hf => ⟨(t2 hf).1, ?_⟩, ih (fun x hx1 hx2 => hm x (by omega) hx2) h4 t3⟩
    rw [hm _ (by omega) (by omega)]
    exact (t2 hf).2

theorem free_le_freeTotal {m : Int → Int} {a e : Int} {bs : List Block} (hc : Chain m a bs e) :
    0 ≤ freeTotal bs ∧ ∀ x ∈ bs, x.alloc = false → x.size ≤ freeTotal bs := by
  induction bs generalizing a with
  | nil => simp [freeTotal]
  | cons b bs ih =>
    obtain ⟨h1, h2, h3, h4⟩ := hc
    obtain ⟨i1, i2⟩ := ih h4
    have hb : 0 ≤ (if b.alloc then 0 else b.size) := by split_ifs <;> omega
    refine ⟨by simp only [freeTotal]; omega, ?_⟩
    intro x hx hxf
    simp only [freeTotal]
    rcases List.mem_cons.mp hx with rfl | hx2
    · rw [hxf]; simp only [Bool.false_eq_true, if_false]; omega
    · have := i2 x hx2 hxf
      omega

/-- Size monotonicity for requests that do not overflow: the block returned by
`balloc` is marked allocated and its size less the header is at least the
request. -/
theorem balloc_payload_ge (fuel : Nat) (h h2 : Heap) (bs : List Block) (n p : Int)
    (hwf : WellFormed h bs) (hn : n ≤ INT_MAX - 11)
    (hb : balloc fuel h n = some (h2, p)) (hp : p ≠ 0) :
    aBit (h2.mem (p - 4)) = true ∧ n ≤ sizeField (h2.mem (p - 4)) - 4 := by
  have hn2 : n ≤ INT_MAX := by unfold INT_MAX at *; omega
  obtain ⟨h1, pre, b, post, hbest, hpe, -, hhdr⟩ := balloc_result hwf hn2 hb hp
  obtain ⟨_, _, _, hc, he, _⟩ := hwf
  obtain ⟨hb1, hfree, hle, _, _⟩ := hbest
  rw [hb1] at hc
  obtain ⟨c1, c2, c3, c4, c5, c6, c7, _, _⟩ := Chain_size_le hc
  have hnd := needed_eq h1 hn
  have hm8 : (if 8 ≤ needed n ∧ 8 ≤ b.size - needed n then needed n else b.size) % 8 = 0 := by
    split_ifs <;> omega
  rw [hhdr, aBit_enc _ hm8, sizeField_enc _ hm8]
  refine ⟨rfl, ?_⟩
  show n ≤ (if 8 ≤ needed n ∧ 8 ≤ b.size - needed n then needed n else b.size) - 4
  split_ifs <;> omega

/-- Exhaustion for requests that do not overflow: `balloc` returns `NULL` and
leaves the state as it is when the request is below 1, and when it exceeds the
total free capacity. -/
theorem balloc_exhausted (fuel : Nat) (h : Heap) (bs : List Block) (n : Int)
    (hwf : WellFormed h bs) (hfuel : bs.length < fuel)
    (hn : n < 1 ∨ (freeTotal bs < n ∧ n ≤ INT_MAX - 11)) :
    balloc fuel h n = some (h, 0) := by
  rcases hn with hn | ⟨hn1, hn2⟩
  · unfold balloc; simp only [hn, if_true]
  · have hbd := hwf.bound
    obtain ⟨hpos, hal, hmax, hc, he, ht⟩ := hwf
    obtain ⟨f0, f1⟩ := free_le_freeTotal hc
    have h1 : 1 ≤ n := by omega
    have hnd := needed_eq h1 hn2
    obtain ⟨r, hr⟩ := @scan_total h.mem (h.heap_start + h.alloc_size) (needed n) he bs
      h.heap_start 0 INT_MAX fuel hc hbd hfuel
    obtain ⟨best, bsz⟩ := r
    unfold INT_MAX at hn2
    rcases scan_spec he bs _ 0 INT_MAX fuel best bsz hc hbd (by rw [hnd]; unfold INT_MAX; omega)
      hr with hA | hB
    · unfold balloc
      have hn' : ¬ n < 1 := by omega
      simp only [hn', if_false, hr, hA.1, if_true]
    · obtain ⟨pre, b, post, ⟨hbs, hfree, hsz, -, -⟩, -, -, -⟩ := hB
      have := f1 b (by rw [hbs]; simp) hfree
      omega

theorem place_frame {m : Int → Int} {best size : Int} {b : Block}
    (hs : 8 ≤ b.size) (hb : b.size ≤ 2147483640) (h8 : 8 ≤ size) (hle : size ≤ b.size) :
    (∀ x, x < best ∨ best + b.size < x → place m best b.size size x = m x) ∧
    (8 ≤ b.size - size →
      place m best b.size size (best + b.size - 4) = b.size - size ∧
      place m best b.size size (best + b.size) = m (best + b.size)) := by
  have ed : wrap32 (b.size - size) = b.size - size := wrap32_id (by omega) (by omega)
  constructor
  · intro x hx
    have x1 : x ≠ best := by omega
    have x2 : x ≠ best + size := by omega
    have x3 : x ≠ best + size + (b.size - size) - 4 := by omega
    unfold place
    simp only [ed]
    split_ifs
    · rw [store_other _ _ x3, store_other _ _ x1, store_other _ _ x2, store_other _ _ x1]
    · rw [store_other _ _ x2, store_other _ _ x1]
    · rw [store_other _ _ x1]
  · intro hsplit
    have hge : b.size - size ≥ 8 := hsplit
    have a1 : best + size + (b.size - size) - 4 = best + b.size - 4 := by omega
    have x1 : best + b.size ≠ best := by omega
    have x2 : best + b.size ≠ best + size := by omega
    have x3 : best + b.size ≠ best + b.size - 4 := by omega
    unfold place
    simp only [ed, hge, if_true, a1]
    exact ⟨store_same _ _ _, by
      rw [store_other _ _ x3, store_other _ _ x1, store_other _ _ x2, store_other _ _ x1]⟩

/-- The placement step keeps the heap well-formed, with the block list of
`placeBlocks`. -/
theorem place_wf {h : Heap} {pre post : List Block} {b : Block} {size : Int}
    (hwf : WellFormed h (pre ++ b :: post)) (hfree : b.alloc = false) (h8 : 8 ≤ size)
    (hle : size ≤ b.size) (hm8 : size % 8 = 0) :
    WellFormed ⟨h.heap_start, h.alloc_size, h.allocated_once,
      place h.mem (h.heap_start + total pre) b.size size⟩ (placeBlocks size pre b post) := by
  have hbd := hwf.bound
  obtain ⟨hpos, hal, hmax, hc, he, ht⟩ := hwf
  obtain ⟨k1, k2⟩ := place_chain hc he ht hbd hfree h8 hle hm8
  refine ⟨hpos, hal, hmax, k1, k2, ?_⟩
  obtain ⟨c1, c2, c3, c4, c5, c6, c7, cpre, cpost⟩ := Chain_size_le hc
  obtain ⟨f1, f2⟩ := @place_frame h.mem (h.heap_start + total pre) size b c2 (by omega) h8 hle
  obtain ⟨t1, t2⟩ := Tags_append.mp ht
  obtain ⟨t3, t4, t5⟩ := t2
  have tpre : Tags (place h.mem (h.heap_start + total pre) b.size size) h.heap_start true pre :=
    Tags_congr (fun x _ hx => f1 x (Or.inl hx)) cpre t1
  show Tags (place h.mem (h.heap_start + total pre) b.size size) h.heap_start true
    (placeBlocks size pre b post)
  unfold placeBlocks
  by_cases hsplit : 8 ≤ b.size - size
  · simp only [hsplit, if_true]
    obtain ⟨f3, f4⟩ := f2 hsplit
    refine Tags_append.mpr ⟨tpre, t3, fun hf => absurd hf (by simp), rfl, fun _ => ⟨rfl, ?_⟩, ?_⟩
    · show place h.mem (h.heap_start + total pre) b.size size
        (h.heap_start + total pre + size + (b.size - size) - 4) = b.size - size
      have : h.heap_start + total pre + size + (b.size - size) - 4 =
          h.heap_start + total pre + b.size - 4 := by omega
      rw [this]; exact f3
    · show Tags _ (h.heap_start + total pre + size + (b.size - size)) false post
      have ea : h.heap_start + total pre + size + (b.size - size) =
          h.heap_start + total pre + b.size := by omega
      rw [ea]
      rw [hfree] at t5
      cases post with
      | nil => trivial
      | cons nx rest =>
        obtain ⟨q1, q2, q3, q4⟩ := cpost
        obtain ⟨u1, u2, u3⟩ := t5
        have hq := Chain_end q4
        have hqg := Chain_total_ge q4
        refine ⟨u1, fun hf => ⟨(u2 hf).1, ?_⟩, ?_⟩
        · exact absurd (u2 hf).1 (by simp)
        · exact Tags_congr (fun x hx _ => f1 x (Or.inr (by omega))) q4 u3
  · simp only [hsplit, if_false]
    refine Tags_append.mpr ⟨tpre, t3, fun hf => absurd hf (by simp), ?_⟩
    show Tags _ (h.heap_start + total pre + b.size) true (setPrev true post)
    rw [hfree] at t5
    cases post with
    | nil => trivial
    | cons nx rest =>
      obtain ⟨q1, q2, q3, q4⟩ := cpost
      obtain ⟨u1, u2, u3⟩ := t5
      have hq := Chain_end q4
      have hqg := Chain_total_ge q4
      simp only [setPrev]
      refine ⟨rfl, fun hf => absurd (u2 hf).1 (by simp), ?_⟩
      show Tags _ (h.heap_start + total pre + b.size + nx.size) nx.alloc rest
      exact Tags_congr (fun x hx _ => f1 x (Or.inr (by omega))) q4 u3

/-- On a well-formed heap `bfree` of the payload address of an allocated block
returns 0 and leaves the headers of `freeBlocks`. -/
theorem bfree_ok {fuel : Nat} {h : Heap} {pre post : List Block} {cur : Block}
    (hwf : WellFormed h (pre ++ cur :: post)) (hal : cur.alloc = true)
    (hfuel : (freeBlocks pre cur post).length < fuel) :
    bfree fuel h (h.heap_start + total pre + 4) =
      some (⟨h.heap_start, h.alloc_size, h.allocated_once,
        freeBlock h.mem (h.heap_start + total pre)⟩, 0) ∧
    disp_loop (freeBlock h.mem (h.heap_start + total pre)) fuel h.heap_start 1 =
      some (rowsOf h.heap_start 1 (freeBlocks pre cur post)) := by
  have hbd := hwf.bound
  obtain ⟨k1, k2, k3⟩ := freeBlock_chain hwf hal
  obtain ⟨hpos, ha, hmax, hc, he, ht⟩ := hwf
  obtain ⟨c1, c2, c3, c4, c5, c6, c7, cpre, cpost⟩ := Chain_size_le hc
  have e4 : h.heap_start + total pre + 4 - 4 = h.heap_start + total pre := by omega
  have hdisp := disp_loop_chain k2 _ h.heap_start 1 fuel k1 hbd hfuel
  have hab : aBit (h.mem (h.heap_start + total pre + 4 - 4)) = true := by
    rw [e4, c1, aBit_enc _ c3]; exact hal
  refine ⟨?_, hdisp⟩
  rw [bfree_eq (by omega) (by omega) (by omega) hab, e4]
  simp only [disp_heap, hdisp]

theorem freeBlocks_placeBlocks {m : Int → Int} {a : Int} {pa : Bool}
    (size : Int) (b : Block) (post : List Block)
    (ht : Tags m a pa (b :: post)) (hfree : b.alloc = false) :
    (8 ≤ b.size - size →
      fwdBlock ⟨size, true, b.palloc⟩ (⟨b.size - size, false, true⟩ :: post) = b ∧
      fwdRest (⟨b.size - size, false, true⟩ :: post) = post) ∧
    (fwdBlock ⟨b.size, true, b.palloc⟩ (setPrev true post) = b ∧
      fwdRest (setPrev true post) = post) := by
  obtain ⟨t1, t2, t3⟩ := ht
  have hp : b.palloc = true := by rw [t1]; exact (t2 hfree).1
  have hb : b = ⟨b.size, false, true⟩ := by
    cases b; simp only [Block.mk.injEq, true_and]; exact ⟨hfree, hp⟩
  constructor
  · intro _
    simp only [fwdBlock, fwdRest, Bool.false_eq_true, if_false, hp]
    refine ⟨?_, trivial⟩
    rw [hb]
    simp
  · cases post with
    | nil =>
      simp only [setPrev, fwdBlock, fwdRest, hp]
      exact ⟨hb.symm, trivial⟩
    | cons nx rest =>
      obtain ⟨u1, u2, u3⟩ := t3
      have hna : nx.alloc = true := by
        cases hx : nx.alloc
        · have := (u2 hx).1
          rw [hfree] at this
          exact absurd this (by simp)
        · rfl
      simp only [setPrev, fwdBlock, fwdRest, hna, if_true, hp]
      refine ⟨hb.symm, ?_⟩
      rw [hfree] at u1
      cases nx
      simp only [List.cons.injEq, Block.mk.injEq, true_and, and_true] at *
      exact ⟨hna.symm, u1.symm⟩

/-- Round trip for requests that do not overflow: on a well-formed heap, when
`balloc n` returns a non-null address `p`, the `bfree p` that follows returns 0
and `disp_heap` prints the same rows as before the `balloc`. -/
theorem balloc_bfree_round_trip (fuel : Nat) (h h2 : Heap) (bs : List Block) (n p : Int)
    (hwf : WellFormed h bs) (hn : n ≤ INT_MAX - 11) (hfuel : bs.length < fuel)
    (hb : balloc fuel h n = some (h2, p)) (hp : p ≠ 0) :
    ∃ h3, bfree fuel h2 p = some (h3, 0) ∧ disp_heap fuel h3 = disp_heap fuel h ∧
      disp_heap fuel h = some (rowsOf h.heap_start 1 bs) := by
  have hn2 : n ≤ INT_MAX := by unfold INT_MAX at *; omega
  have hrows := disp_heap_rows hwf hfuel
  obtain ⟨h1, pre, b, post, hbest, hpe, hh2, -⟩ := balloc_result hwf hn2 hb hp
  obtain ⟨hb1, hfree, hle, _, _⟩ := hbest
  subst hb1
  have hnd := needed_eq h1 hn
  have hwf2 := place_wf hwf hfree (by rw [hnd]; omega) hle (by rw [hnd]; omega)
  obtain ⟨-, -, -, -, -, ht⟩ := hwf
  obtain ⟨-, tb⟩ := Tags_append.mp ht
  obtain ⟨g1, g2⟩ := freeBlocks_placeBlocks (needed n) b post tb hfree
  rw [hh2, hpe]
  by_cases hsplit : 8 ≤ b.size - needed n
  · have hpb : placeBlocks (needed n) pre b post =
        pre ++ ⟨needed n, true, b.palloc⟩ :: ⟨b.size - needed n, false, true⟩ :: post := by
      unfold placeBlocks; simp only [hsplit, if_true]
    rw [hpb] at hwf2
    have hfb : freeBlocks pre ⟨needed n, true, b.palloc⟩
        (⟨b.size - needed n, false, true⟩ :: post) = pre ++ b :: post := by
      unfold freeBlocks
      rw [(g1 hsplit).1, (g1 hsplit).2]
      unfold mergeBack
      have : b.palloc = true := by
        obtain ⟨t1, t2, -⟩ := tb
        rw [t1]; exact (t2 hfree).1
      simp only [this, if_true]
    obtain ⟨r1, r2⟩ := @bfree_ok fuel _ pre _ ⟨needed n, true, b.palloc⟩ hwf2 rfl
      (by rw [hfb]; exact hfuel)
    rw [hfb] at r2
    exact ⟨_, r1, by rw [hrows]; exact r2, hrows⟩
  · have hpb : placeBlocks (needed n) pre b post =
        pre ++ ⟨b.size, true, b.palloc⟩ :: setPrev true post := by
      unfold placeBlocks; simp only [hsplit, if_false]
    rw [hpb] at hwf2
    have hfb : freeBlocks pre ⟨b.size, true, b.palloc⟩ (setPrev true post) = pre ++ b :: post := by
      unfold freeBlocks
      rw [g2.1, g2.2]
      unfold mergeBack
      have : b.palloc = true := by
        obtain ⟨t1, t2, -⟩ := tb
        rw [t1]; exact (t2 hfree).1
      simp only [this, if_true]
    obtain ⟨r1, r2⟩ := @bfree_ok fuel _ pre _ ⟨b.size, true, b.palloc⟩ hwf2 rfl
      (by rw [hfb]; exact hfuel)
    rw [hfb] at r2
    exact ⟨_, r1, by rw [hrows]; exact r2, hrows⟩

/-! ## init_heap: rejected calls -/

/-- A successful `init_heap` sets the one-shot flag `allocated_once`. -/
theorem init_heap_sets_flag (env : Env) (h : Heap) (s : Int)
    (h0 : (init_heap env h s).2 = 0) : (init_heap env h s).1.allocated_once = 1 := by
  unfold init_heap at h0 ⊢
  split_ifs at h0 ⊢ with c1 c2 c3
  all_goals first
    | (simp at h0; done)
    | (cases hm : env.mmap
          (wrap32 (s + cmod (wrap32 (env.pagesize - cmod s env.pagesize)) env.pagesize)) <;>
        simp [hm] at h0 ⊢)

/-- Once the flag `allocated_once` is set, `init_heap` returns -1 and leaves
the state as it is. -/
theorem init_heap_flag_set (env : Env) (h : Heap) (s : Int) (hf : h.allocated_once = 1) :
    init_heap env h s = (h, -1) := by
  unfold init_heap
  rw [if_pos (by rw [hf]; decide)]

/-- The function `balloc` does not assign `allocated_once`. -/
theorem balloc_flag {fuel : Nat} {h h2 : Heap} {n p : Int}
    (hb : balloc fuel h n = some (h2, p)) : h2.allocated_once = h.allocated_once := by
  unfold balloc at hb
  by_cases h1 : n < 1
  · simp only [h1, if_true, Option.some.injEq, Prod.mk.injEq] at hb
    rw [← hb.1]
  · simp only [h1, if_false] at hb
    cases hs : scan h.mem (needed n) fuel h.heap_start 0 INT_MAX with
    | none => simp [hs] at hb
    | some r =>
      obtain ⟨best, bsz⟩ := r
      simp only [hs] at hb
      by_cases h0 : best = 0
      · simp only [h0, if_true, Option.some.injEq, Prod.mk.injEq] at hb
        rw [← hb.1]
      · simp only [h0, if_false] at hb
        cases hd : disp_heap fuel { h with mem := place h.mem best bsz (needed n) } with
        | none => simp [hd] at hb
        | some rows =>
          simp only [hd, Option.some.injEq, Prod.mk.injEq] at hb
          rw [← hb.1]

/-- The function `bfree` does not assign `allocated_once`. -/
theorem bfree_flag {fuel : Nat} {h h2 : Heap} {p r : Int}
    (hb : bfree fuel h p = some (h2, r)) : h2.allocated_once = h.allocated_once := by
  unfold bfree at hb
  by_cases c1 : p = 0
  · simp [c1] at hb; rw [← hb.1]
  · by_cases c2 : p % 8 ≠ 0
    · simp [c1, c2] at hb; rw [← hb.1]
    · by_cases c3 : p > h.heap_start + 4 * h.alloc_size
      · simp [c1, c2, c3] at hb; rw [← hb.1]
      · by_cases c4 : aBit (h.mem (p - 4)) = true
        · simp only [c1, c2, c3, c4, if_false, not_true_eq_false] at hb
          cases hd : disp_heap fuel ⟨h.heap_start, h.alloc_size, h.allocated_once,
              freeBlock h.mem (p - 4)⟩ with
          | none => rw [hd] at hb; simp at hb
          | some rows =>
            rw [hd] at hb
            simp only [Option.some.injEq, Prod.mk.injEq] at hb
            rw [← hb.1]
        · simp [c1, c2, c3, c4] at hb; rw [← hb.1]

/-- No action of a program clears the flag `allocated_once` once it is set. -/
theorem step_flag {h h2 : Heap} {c : Call} (hf : h.allocated_once = 1)
    (hs : step h c = some h2) : h2.allocated_once = 1 := by
  cases c with
  | init env s =>
    simp only [step, Option.some.injEq] at hs
    rw [init_heap_flag_set env h s hf] at hs
    rw [← hs]; exact hf
  | alloc fuel n =>
    simp only [step, Option.map_eq_some', Prod.exists] at hs
    obtain ⟨a, b, hb, rfl⟩ := hs
    rw [balloc_flag hb]; exact hf
  | free fuel p =>
    simp only [step, Option.map_eq_some', Prod.exists] at hs
    obtain ⟨a, b, hb, rfl⟩ := hs
    rw [bfree_flag hb]; exact hf
  | write mem =>
    simp only [step, Option.some.injEq] at hs
    rw [← hs]; exact hf

theorem run_flag (calls : List Call) : ∀ {h h2 : Heap}, h.allocated_once = 1 →
    run h calls = some h2 → h2.allocated_once = 1 := by
  induction calls with
  | nil =>
    intro h h2 hf hr
    simp only [run, Option.some.injEq] at hr
    rw [← hr]; exact hf
  | cons c cs ih =>
    intro h h2 hf hr
    simp only [run, Option.bind_eq_some] at hr
    obtain ⟨h3, hs, hr2⟩ := hr
    exact ih (step_flag hf hs) hr2

/-- C11 (init rejection): `init_heap` returns -1 and leaves the whole state
(`heap_start`, `alloc_size`, the one-shot flag and every word of memory) as it
was, in any state when the requested size is not positive, and, whatever the
request and the environment, in every state that a program reaches after an
earlier successful `init_heap` by any sequence of calls of `init_heap`,
`balloc` and `bfree` and stores of its own. -/
theorem init_heap_rejects (env env1 : Env) (h0 h1 h : Heap) (s s1 : Int) (calls : List Call)
    (hcase : s ≤ 0 ∨ (init_heap env1 h0 s1 = (h1, 0) ∧ run h1 calls = some h)) :
    init_heap env h s = (h, -1) := by
  rcases hcase with hs | ⟨hprev, hrun⟩
  · by_cases hflag : 0 ≠ h.allocated_once
    · unfold init_heap
      rw [if_pos hflag]
    · unfold init_heap
      rw [if_neg hflag, if_pos hs]
  · have h2 : (init_heap env1 h0 s1).2 = 0 := by rw [hprev]
    have h3 := init_heap_sets_flag env1 h0 s1 h2
    rw [hprev] at h3
    exact init_heap_flag_set env h s (run_flag calls h3 hrun)

theorem init_heap_rejects_witness :
    init_heap env512 heap0 512 = (heap504, 0) ∧
    run heap504 [Call.alloc 8 24, Call.alloc 8 24, Call.free 8 4294967304] = some heapR ∧
    init_heap env512 heapR 512 = (heapR, -1) ∧
    init_heap env512 heap504 512 = (heap504, -1) ∧
    init_heap env512 heap0 0 = (heap0, -1) :=
  ⟨rfl, rfl,
    init_heap_rejects env512 env512 heap0 heap504 heapR 512 512
      [Call.alloc 8 24, Call.alloc 8 24, Call.free 8 4294967304] (Or.inr ⟨rfl, rfl⟩),
    init_heap_rejects env512 env512 heap0 heap504 heap504 512 512 [] (Or.inr ⟨rfl, rfl⟩),
    init_heap_rejects env512 env512 heap0 heap0 heap0 0 0 [] (Or.inl (by decide))⟩

/-! ## Exact size, footers, placement -/

/-- C18 (exact-size allocation): on a well-formed heap, for a request with
`1 ≤ n ≤ INT_MAX - 11`, when `balloc` returns a non-null address the block at
that address is marked allocated and its size is exactly `n + 4` rounded up to
a multiple of 8; the chosen free block is taken whole only when its size is
that value. -/
theorem balloc_exact_size (fuel : Nat) (h h2 : Heap) (bs : List Block) (n p : Int)
    (hwf : WellFormed h bs) (hn1 : 1 ≤ n) (hn : n ≤ INT_MAX - 11)
    (hb : balloc fuel h n = some (h2, p)) (hp : p ≠ 0) :
    aBit (h2.mem (p - 4)) = true ∧ sizeField (h2.mem (p - 4)) = (n + 11) / 8 * 8 ∧
    ∃ pre b post, IsBest ((n + 11) / 8 * 8) bs pre b post ∧
      p = h.heap_start + total pre + 4 ∧
      (¬ 8 ≤ b.size - (n + 11) / 8 * 8 → b.size = (n + 11) / 8 * 8) := by
  have hn2 : n ≤ INT_MAX := by unfold INT_MAX at *; omega
  obtain ⟨-, pre, b, post, hbest, hpe, -, hhdr⟩ := balloc_result hwf hn2 hb hp
  obtain ⟨_, _, _, hc, he, _⟩ := hwf
  have hnd := needed_eq hn1 hn
  rw [hnd] at hbest hhdr
  have hbest' := hbest
  obtain ⟨hb1, hfree, hle, _, _⟩ := hbest
  rw [hb1] at hc
  obtain ⟨c1, c2, c3, c4, c5, c6, c7, _, _⟩ := Chain_size_le hc
  have hsz : (if 8 ≤ (n + 11) / 8 * 8 ∧ 8 ≤ b.size - (n + 11) / 8 * 8 then (n + 11) / 8 * 8
      else b.size) = (n + 11) / 8 * 8 := by
    split_ifs <;> omega
  rw [hsz] at hhdr
  have hm8 : ((n + 11) / 8 * 8) % 8 = 0 := by omega
  rw [hhdr, aBit_enc ⟨(n + 11) / 8 * 8, true, b.palloc⟩ hm8,
    sizeField_enc ⟨(n + 11) / 8 * 8, true, b.palloc⟩ hm8]
  exact ⟨rfl, rfl, pre, b, post, hbest', hpe, fun _ => by omega⟩

theorem balloc_exact_size_witness :
    WellFormed heapA [⟨32, true, true⟩, ⟨472, false, true⟩] ∧
    balloc 8 heapA 24 = some (heapB, 4294967336) ∧
    aBit (heapB.mem (4294967336 - 4)) = true ∧
    sizeField (heapB.mem (4294967336 - 4)) = (24 + 11) / 8 * 8 :=
  ⟨heapA_wf, heapA_balloc,
    (balloc_exact_size 8 heapA heapB [⟨32, true, true⟩, ⟨472, false, true⟩] 24 4294967336
      heapA_wf (by decide) (by decide) heapA_balloc (by decide)).1,
    (balloc_exact_size 8 heapA heapB [⟨32, true, true⟩, ⟨472, false, true⟩] 24 4294967336
      heapA_wf (by decide) (by decide) heapA_balloc (by decide)).2.1⟩

theorem heapS6_wf : WellFormed heapS6
    [⟨8, false, true⟩, ⟨8, true, false⟩, ⟨8, false, true⟩, ⟨8, true, false⟩,
      ⟨472, false, true⟩] := by decide

/-- C12: on the well-formed heap `heapS6` (free 8, allocated 8, free 8,
allocated 8, free 472) the `bfree` of the second block returns 0 and merges it
with both neighbours into a free block of 24 bytes, yet the last word of that
block holds 16, and the merged size 24 sits in the footer of the original block,
8 bytes before. -/
theorem bfree_merge_both_footer :
    WellFormed heapS6
      [⟨8, false, true⟩, ⟨8, true, false⟩, ⟨8, false, true⟩, ⟨8, true, false⟩,
        ⟨472, false, true⟩] ∧
    bfree 8 heapS6 (hsA + 8 + 4) = some (heapS7, 0) ∧
    disp_heap 8 heapS7 =
      some [⟨1, false, true, hsA, hsA + 23, 24⟩, ⟨2, true, false, hsA + 24, hsA + 31, 8⟩,
        ⟨3, false, true, hsA + 32, hsA + 503, 472⟩] ∧
    heapS7.mem (hsA + 24 - 4) = 16 ∧ heapS7.mem (hsA + 16 - 4) = 24 :=
  ⟨heapS6_wf, rfl, by decide, by decide, by decide⟩

/-- C13: on the well-formed heap `heapC` (free 8, allocated 496) the call
`balloc(INT_MAX)` succeeds and takes the free block whole, but the header of
the block that follows keeps the word 497: its p-bit is not set.  The stray
store of the call lands at `heap_start - 2147483640`. -/
theorem balloc_int_max_no_pbit :
    WellFormed heapC [⟨8, false, true⟩, ⟨496, true, false⟩] ∧
    balloc 8 heapC 2147483647 = some (heapD, hsA + 4) ∧
    heapD.mem hsA = enc ⟨8, true, true⟩ ∧
    heapC.mem (hsA + 8) = 497 ∧ heapD.mem (hsA + 8) = 497 ∧
    pBit (heapD.mem (hsA + 8)) = false ∧
    heapC.mem (hsA - 2147483640) = 0 ∧ heapD.mem (hsA - 2147483640) = 2 :=
  ⟨heapC_wf, rfl, by decide, by decide, by decide, by decide, by decide, by decide⟩

/-- C19: on the well-formed heap `heap504` the call `balloc(INT_MAX)` succeeds
and changes the word at `heap_start - 2147483640` from 0 to 2: an address below
the heap, which is neither a block header nor inside a free block. -/
theorem balloc_int_max_stray_store :
    WellFormed heap504 [⟨504, false, true⟩] ∧
    balloc 8 heap504 2147483647 = some (heapMax, hsA + 4) ∧
    hsA - 2147483640 < heap504.heap_start ∧
    heap504.mem (hsA - 2147483640) = 0 ∧ heapMax.mem (hsA - 2147483640) = 2 :=
  ⟨heap504_wf, rfl, by decide, by decide, by decide⟩

/-! ## Addresses that bfree rejects -/

theorem scan_path_step {m : Int → Int} {size a : Int} {b : Block} (f : Nat)
    (h1 : m a = enc b) (h2 : 8 ≤ b.size) (hb : b.size ≤ 2147483640) (h3 : b.size % 8 = 0) :
    scan_path m size (f + 1) a =
      if b.alloc = false ∧ b.size = size then some [a]
      else (scan_path m size f (a + b.size)).map (fun l => a :: l) := by
  have hd := scan_decode b h2 hb h3
  have hab := aBit_enc b h3
  cases hal : b.alloc
  · simp only [hal] at hd hab
    simp [scan_path, h1, enc_ne_one b h2, hab, hd.2]
  · simp only [hal] at hd hab
    simp [scan_path, h1, enc_ne_one b h2, hab, hd.1]

theorem scan_path_chain {m : Int → Int} {e size : Int} (he : m e = 1) :
    ∀ (bs : List Block) (a : Int) (fuel : Nat), Chain m a bs e → e - a ≤ 2147483640 →
      bs.length < fuel → scan_path m size fuel a = some (visited size a bs) := by
  intro bs
  induction bs with
  | nil =>
    intro a fuel h _ hf
    obtain ⟨f, rfl⟩ : ∃ f, fuel = f + 1 := ⟨fuel - 1, by simp at hf; omega⟩
    simp only [Chain] at h
    subst h
    simp [scan_path, he, visited]
  | cons b bs ih =>
    intro a fuel h hbd hf
    obtain ⟨f, rfl⟩ : ∃ f, fuel = f + 1 := ⟨fuel - 1, by simp at hf; omega⟩
    obtain ⟨h1, h2, h3, h4⟩ := h
    have hend := Chain_end h4
    have hge := Chain_total_ge h4
    simp only [List.length_cons] at hf
    rw [scan_path_step f h1 h2 (by omega) h3, ih _ f h4 (by omega) (by omega)]
    simp only [visited, Option.map_some']
    split_ifs <;> rfl

/-- C17 (as amended): on a well-formed heap, with enough fuel, the walk of
`disp_heap` ends and prints one row for each block, in address order, the rows
cover `alloc_size` bytes, and the word after the last block is the end mark 1.
The search loop of `balloc` ends as well, for every request size; it runs on the
blocks in address order and stops at the end mark, or at once on the first free
block whose size equals the request.  `disp_heap` has no effect on the state:
its model returns the rows only. -/
theorem walks_terminate (fuel : Nat) (h : Heap) (bs : List Block) (size : Int)
    (hwf : WellFormed h bs) (hf : bs.length < fuel) :
    disp_heap fuel h = some (rowsOf h.heap_start 1 bs) ∧
    h.heap_start + total bs = h.heap_start + h.alloc_size ∧
    h.mem (h.heap_start + h.alloc_size) = 1 ∧
    (∃ r, scan h.mem size fuel h.heap_start 0 INT_MAX = some r) ∧
    scan_path h.mem size fuel h.heap_start = some (visited size h.heap_start bs) := by
  have hrows := disp_heap_rows hwf hf
  have hbd := hwf.bound
  obtain ⟨_, _, _, hc, he, _⟩ := hwf
  exact ⟨hrows, Chain_end hc, he, scan_total he bs _ 0 INT_MAX fuel hc hbd hf,
    scan_path_chain he bs _ fuel hc hbd hf⟩

theorem walks_terminate_witness :
    WellFormed heapF blocksF ∧
    disp_heap 10 heapF = some (rowsOf heapF.heap_start 1 blocksF) ∧
    heapF.heap_start + total blocksF = heapF.heap_start + heapF.alloc_size ∧
    heapF.mem (heapF.heap_start + heapF.alloc_size) = 1 ∧
    (∃ r, scan heapF.mem 32 10 heapF.heap_start 0 INT_MAX = some r) ∧
    scan_path heapF.mem 32 10 heapF.heap_start = some (visited 32 heapF.heap_start blocksF) :=
  ⟨heapF_wf, walks_terminate 10 heapF blocksF 32 heapF_wf (by decide)⟩

/-- C17, counterexample: in the well-formed heap `heapF` of six blocks (free
16, allocated 8, free 40, allocated 8, free 24, allocated 408) the search loop
of `balloc(20)`, whose request size is 24, runs on five blocks and stops on the
fifth, the free block of 24 bytes, which is not the end mark; it never reads
the sixth block.  The walk of `disp_heap` prints six rows. -/
theorem scan_stops_early :
    WellFormed heapF blocksF ∧ needed 20 = 24 ∧
    scan_path heapF.mem (needed 20) 10 hsA = some [hsA, hsA + 16, hsA + 24, hsA + 64, hsA + 72] ∧
    scan heapF.mem (needed 20) 10 hsA 0 INT_MAX = some (hsA + 72, 24) ∧
    heapF.mem (hsA + 72) ≠ 1 ∧ hsA + 72 ≠ heapF.heap_start + heapF.alloc_size ∧
    (disp_heap 10 heapF).map List.length = some 6 := by
  refine ⟨heapF_wf, by decide, by decide, by decide, by decide, by decide, by decide⟩

/-! ## Invariants after a call -/

theorem bfree_inv {fuel : Nat} {h h2 : Heap} {p : Int}
    (hb : bfree fuel h p = some (h2, 0)) :
    h2 = ⟨h.heap_start, h.alloc_size, h.allocated_once, freeBlock h.mem (p - 4)⟩ := by
  unfold bfree at hb
  by_cases c1 : p = 0
  · simp [c1] at hb
  · by_cases c2 : p % 8 ≠ 0
    · simp [c1, c2] at hb
    · by_cases c3 : p > h.heap_start + 4 * h.alloc_size
      · simp [c1, c2, c3] at hb
      · by_cases c4 : aBit (h.mem (p - 4)) = true
        · simp only [c1, c2, c3, c4, if_false, not_true_eq_false] at hb
          cases hd : disp_heap fuel ⟨h.heap_start, h.alloc_size, h.allocated_once,
              freeBlock h.mem (p - 4)⟩ with
          | none => rw [hd] at hb; simp at hb
          | some rows =>
            rw [hd] at hb
            simp only [Option.some.injEq, Prod.mk.injEq, and_true] at hb
            exact hb.symm
        · simp [c1, c2, c3, c4] at hb

theorem place_chain_overflow {m : Int → Int} {hs e size : Int} {pre post : List Block}
    {b : Block} (hc : Chain m hs (pre ++ b :: post) e) (he : m e = 1)
    (hbd : e - hs ≤ 2147483640) (hfree : b.alloc = false) (hm8 : size % 8 = 0)
    (hlo : -2147483648 ≤ size) (hhi : size ≤ -2147483640) :
    Chain (place m (hs + total pre) b.size size) hs (pre ++ ⟨b.size, true, b.palloc⟩ :: post) e ∧
      place m (hs + total pre) b.size size e = 1 := by
  obtain ⟨c1, c2, c3, c4, c5, c6, c7, cpre, cpost⟩ := Chain_size_le hc
  have hhdr := @place_header m (hs + total pre) size b c1 hfree c2 (by omega) c3 hm8 (by omega)
    hlo (Or.inr hhi)
  have hcond : ¬ (8 ≤ size ∧ 8 ≤ b.size - size) := fun h => by omega
  simp only [hcond, if_false] at hhdr
  have hpl : ∀ x, hs ≤ x → x ≠ hs + total pre →
      place m (hs + total pre) b.size size x = m x := by
    intro x x0 x1
    have x2 : x ≠ hs + total pre + size := by omega
    have hw : ¬ wrap32 (b.size - size) ≥ 8 := by unfold wrap32; omega
    unfold place
    simp only [hw, if_false]
    split_ifs
    · rw [store_other _ _ x2, store_other _ _ x1]
    · rw [store_other _ _ x1]
  refine ⟨Chain_append.mpr ⟨Chain_congr (fun x hx1 hx2 => hpl x hx1 (by omega)) cpre, hhdr, c2,
    c3, ?_⟩, ?_⟩
  · show Chain _ (hs + total pre + b.size) post e
    exact Chain_congr (fun x hx _ => hpl x (by omega) (by omega)) cpost
  · rw [hpl e (by omega) (by omega)]; exact he

theorem PBits_append {pa : Bool} {xs ys : List Block} :
    PBits pa (xs ++ ys) ↔ PBits pa xs ∧ PBits (lastAlloc pa xs) ys := by
  induction xs generalizing pa with
  | nil => simp [PBits, lastAlloc]
  | cons b bs ih =>
    show (b.palloc = pa ∧ PBits b.alloc (bs ++ ys)) ↔ _
    rw [ih]
    simp only [PBits, lastAlloc]
    tauto

theorem Tags_PBits {m : Int → Int} {a : Int} {pa : Bool} {bs : List Block}
    (h : Tags m a pa bs) : PBits pa bs := by
  induction bs generalizing a pa with
  | nil => trivial
  | cons b bs ih => exact ⟨h.1, ih h.2.2⟩

theorem freeBlocks_pbits {pre post : List Block} {cur : Block}
    (h : PBits true (pre ++ cur :: post)) (hal : cur.alloc = true) :
    PBits true (freeBlocks pre cur post) := by
  obtain ⟨hpre, hcur⟩ := PBits_append.mp h
  obtain ⟨hp, hpost⟩ := hcur
  rw [hal] at hpost
  -- forward step
  have hfwd : PBits (lastAlloc true pre) (fwdBlock cur post :: fwdRest post) ∧
      (fwdBlock cur post).alloc = false ∧ (fwdBlock cur post).palloc = cur.palloc := by
    cases post with
    | nil => exact ⟨⟨hp, trivial⟩, rfl, rfl⟩
    | cons nx rest =>
      obtain ⟨q1, q2⟩ := hpost
      cases hna : nx.alloc
      · rw [hna] at q2
        simp only [fwdBlock, fwdRest, hna, Bool.false_eq_true, if_false]
        refine ⟨⟨hp, q2⟩, ?_, ?_⟩ <;> trivial
      · rw [hna] at q2
        simp only [fwdBlock, fwdRest, hna, if_true]
        refine ⟨⟨hp, rfl, q2⟩, ?_, ?_⟩ <;> trivial
  obtain ⟨f1, f2, f3⟩ := hfwd
  unfold freeBlocks
  cases hcp : (fwdBlock cur post).palloc
  · -- merge with the block before
    rcases exists_concat pre with rfl | ⟨pre2, pv, rfl⟩
    · rw [f3, hp] at hcp
      simp [lastAlloc] at hcp
    · rw [mergeBack_concat _ _ _ _ hcp]
      obtain ⟨g1, g2⟩ := PBits_append.mp hpre
      obtain ⟨g3, -⟩ := g2
      rw [lastAlloc_append] at f1
      simp only [lastAlloc] at f1
      obtain ⟨-, f5⟩ := f1
      rw [f2] at f5
      exact PBits_append.mpr ⟨g1, g3, f5⟩
  · unfold mergeBack
    simp only [hcp, if_true]
    exact PBits_append.mpr ⟨hpre, f1⟩

/-- C15 (as amended): on a well-formed heap, after a successful `balloc` of any
`int` request, and after a `bfree` of the payload address of an allocated block
that returns 0, `heap_start` and `alloc_size` are as before and the headers
walked from `heap_start` form a chain of blocks whose sizes are positive
multiples of 8, sum to `alloc_size`, and end on the end mark 1. -/
theorem partition_preserved (fuel : Nat) (h h2 : Heap) (bs : List Block)
    (hwf : WellFormed h bs)
    (hcall : (∃ n p, n ≤ INT_MAX ∧ p ≠ 0 ∧ balloc fuel h n = some (h2, p)) ∨
      (∃ pre cur post, bs = pre ++ cur :: post ∧ cur.alloc = true ∧
        bfree fuel h (h.heap_start + total pre + 4) = some (h2, 0))) :
    h2.heap_start = h.heap_start ∧ h2.alloc_size = h.alloc_size ∧
    ∃ bs2, Chain h2.mem h2.heap_start bs2 (h2.heap_start + h2.alloc_size) ∧
      h2.heap_start + total bs2 = h2.heap_start + h2.alloc_size ∧
      h2.mem (h2.heap_start + h2.alloc_size) = 1 := by
  have hbd := hwf.bound
  rcases hcall with ⟨n, p, hn, hp, hb⟩ | ⟨pre, cur, post, hbs, hal, hb⟩
  · obtain ⟨h1, pre, b, post, hbest, hpe, hh2, -⟩ := balloc_result hwf hn hb hp
    obtain ⟨hpos, ha, hmax, hc, he, ht⟩ := hwf
    obtain ⟨hb1, hfree, hle, -, -⟩ := hbest
    subst hb1
    obtain ⟨n1, n2, n3, n4, n5, n6⟩ := needed_spec h1 hn
    subst hh2
    refine ⟨rfl, rfl, ?_⟩
    by_cases hr : n ≤ INT_MAX - 11
    · have hnd := n5 hr
      obtain ⟨k1, k2⟩ := place_chain hc he ht hbd hfree (by rw [hnd]; omega) hle n1
      exact ⟨_, k1, Chain_end k1, k2⟩
    · obtain ⟨k1, k2⟩ := place_chain_overflow hc he hbd hfree n1 n3 (n6 (by omega))
      exact ⟨_, k1, Chain_end k1, k2⟩
  · subst hbs
    obtain ⟨k1, k2, -⟩ := freeBlock_chain hwf hal
    have hh2 := bfree_inv hb
    have e4 : h.heap_start + total pre + 4 - 4 = h.heap_start + total pre := by omega
    rw [e4] at hh2
    subst hh2
    exact ⟨rfl, rfl, _, k1, Chain_end k1, k2⟩

theorem heapA_bfree : bfree 8 heapA (heapA.heap_start + total [] + 4) =
    some (stateOf (bfree 8 heapA (heapA.heap_start + total [] + 4)), 0) := rfl

theorem partition_preserved_witness :
    WellFormed heapA [⟨32, true, true⟩, ⟨472, false, true⟩] ∧
    balloc 8 heapA 24 = some (heapB, 4294967336) ∧
    (∃ bs2, Chain heapB.mem heapB.heap_start bs2 (heapB.heap_start + heapB.alloc_size) ∧
      heapB.heap_start + total bs2 = heapB.heap_start + heapB.alloc_size ∧
      heapB.mem (heapB.heap_start + heapB.alloc_size) = 1) :=
  ⟨heapA_wf, heapA_balloc,
    (partition_preserved 8 heapA heapB [⟨32, true, true⟩, ⟨472, false, true⟩] heapA_wf
      (Or.inl ⟨24, 4294967336, by decide, by decide, heapA_balloc⟩)).2.2⟩

theorem heapU2_wf : WellFormed heapU2 [⟨32, true, true⟩, ⟨472, false, true⟩] := by decide

/-- C15, counterexample: in the well-formed heap `heapU2` the payload of the
allocated block holds the words 8, 9 and 1 at `heap_start + 4`, `+ 8` and
`+ 16`.  The call `bfree(heap_start + 12)` returns 0; afterwards the walk from
`heap_start` reads one free block of 16 bytes and stops on the word 1 at
`heap_start + 16`, so the sizes sum to 16 and not to `alloc_size = 504`. -/
theorem bfree_breaks_partition :
    WellFormed heapU2 [⟨32, true, true⟩, ⟨472, false, true⟩] ∧
    heapU2.alloc_size = 504 ∧
    (bfree 8 heapU2 (hsA + 12)).map (fun r => r.2) = some 0 ∧
    (bfree 8 heapU2 (hsA + 12)).bind (fun r => disp_heap 8 r.1) =
      some [⟨1, false, true, hsA, hsA + 15, 16⟩] :=
  ⟨heapU2_wf, by decide, by decide, by decide⟩

/-- C14 (as amended): on a well-formed heap, after a successful `balloc` of a
request `n ≤ INT_MAX - 11`, and after a `bfree` of the payload address of an
allocated block that returns 0, the headers walked from `heap_start` form a
chain of blocks ending on the end mark in which the p-bit of the first block is
set and the p-bit of every other block equals the a-bit of the block before. -/
theorem pbits_preserved (fuel : Nat) (h h2 : Heap) (bs : List Block)
    (hwf : WellFormed h bs)
    (hcall : (∃ n p, n ≤ INT_MAX - 11 ∧ p ≠ 0 ∧ balloc fuel h n = some (h2, p)) ∨
      (∃ pre cur post, bs = pre ++ cur :: post ∧ cur.alloc = true ∧
        bfree fuel h (h.heap_start + total pre + 4) = some (h2, 0))) :
    ∃ bs2, Chain h2.mem h2.heap_start bs2 (h2.heap_start + h2.alloc_size) ∧
      h2.mem (h2.heap_start + h2.alloc_size) = 1 ∧ PBits true bs2 := by
  rcases hcall with ⟨n, p, hn, hp, hb⟩ | ⟨pre, cur, post, hbs, hal, hb⟩
  · have hn2 : n ≤ INT_MAX := by unfold INT_MAX at *; omega
    obtain ⟨h1, pre, b, post, hbest, hpe, hh2, -⟩ := balloc_result hwf hn2 hb hp
    obtain ⟨hb1, hfree, hle, -, -⟩ := hbest
    subst hb1
    have hnd := needed_eq h1 hn
    obtain ⟨-, -, -, k1, k2, k3⟩ := place_wf hwf hfree (by rw [hnd]; omega) hle
      (by rw [hnd]; omega)
    subst hh2
    exact ⟨_, k1, k2, Tags_PBits k3⟩
  · subst hbs
    obtain ⟨k1, k2, -⟩ := freeBlock_chain hwf hal
    have hh2 := bfree_inv hb
    have e4 : h.heap_start + total pre + 4 - 4 = h.heap_start + total pre := by omega
    rw [e4] at hh2
    subst hh2
    obtain ⟨-, -, -, -, -, ht⟩ := hwf
    exact ⟨_, k1, k2, freeBlocks_pbits (Tags_PBits ht) hal⟩

theorem pbits_preserved_witness :
    WellFormed heapA [⟨32, true, true⟩, ⟨472, false, true⟩] ∧
    bfree 8 heapA (heapA.heap_start + total [] + 4) =
      some (stateOf (bfree 8 heapA (heapA.heap_start + total [] + 4)), 0) ∧
    (∃ bs2, Chain (stateOf (bfree 8 heapA (heapA.heap_start + total [] + 4))).mem
        (stateOf (bfree 8 heapA (heapA.heap_start + total [] + 4))).heap_start bs2
        ((stateOf (bfree 8 heapA (heapA.heap_start + total [] + 4))).heap_start +
          (stateOf (bfree 8 heapA (heapA.heap_start + total [] + 4))).alloc_size) ∧
      (stateOf (bfree 8 heapA (heapA.heap_start + total [] + 4))).mem
        ((stateOf (bfree 8 heapA (heapA.heap_start + total [] + 4))).heap_start +
          (stateOf (bfree 8 heapA (heapA.heap_start + total [] + 4))).alloc_size) = 1 ∧
      PBits true bs2) :=
  ⟨heapA_wf, heapA_bfree,
    pbits_preserved 8 heapA _ [⟨32, true, true⟩, ⟨472, false, true⟩] heapA_wf
      (Or.inr ⟨[], ⟨32, true, true⟩, [⟨472, false, true⟩], rfl, rfl, heapA_bfree⟩)⟩

theorem heapU1_wf : WellFormed heapU1 [⟨32, true, true⟩, ⟨472, false, true⟩] := by decide

/-- C14, counterexamples.  In the well-formed heap `heapU1` the payload of the
allocated block holds the word 25 at `heap_start + 8`; the call
`bfree(heap_start + 12)` returns 0 and takes 2 off the header of the free block
that follows, so the walk shows an allocated block followed by a block whose
p-bit is clear.  In the well-formed heap `heapC` the call `balloc(INT_MAX)`
succeeds and the walk shows the same: the request size overflows and the p-bit
of the next block is not set. -/
theorem pbits_claim_fails :
    (WellFormed heapU1 [⟨32, true, true⟩, ⟨472, false, true⟩] ∧
      (bfree 8 heapU1 (hsA + 12)).map (fun r => r.2) = some 0 ∧
      (bfree 8 heapU1 (hsA + 12)).bind (fun r => disp_heap 8 r.1) =
        some [⟨1, true, true, hsA, hsA + 31, 32⟩, ⟨2, false, false, hsA + 32, hsA + 503, 472⟩]) ∧
    (WellFormed heapC [⟨8, false, true⟩, ⟨496, true, false⟩] ∧
      balloc 8 heapC 2147483647 = some (heapD, hsA + 4) ∧
      disp_heap 8 heapD =
        some [⟨1, true, true, hsA, hsA + 7, 8⟩, ⟨2, true, false, hsA + 8, hsA + 503, 496⟩]) :=
  ⟨⟨heapU1_wf, by decide, by decide⟩, ⟨heapC_wf, rfl, by decide⟩⟩

/-! ## Placement and frame for requests that do not overflow -/

/-- Placement for requests that do not overflow: after a successful `balloc`
the heap is well-formed with the block list of `placeBlocks` for the best-fit
block: split into an allocated block of the request size and a free remainder
when at least 8 bytes are left over, and otherwise taken whole, with the p-bit
of the next block set. -/
theorem balloc_placement (fuel : Nat) (h h2 : Heap) (bs : List Block) (n p : Int)
    (hwf : WellFormed h bs) (hn : n ≤ INT_MAX - 11)
    (hb : balloc fuel h n = some (h2, p)) (hp : p ≠ 0) :
    needed n = (n + 11) / 8 * 8 ∧
    ∃ pre b post, IsBest (needed n) bs pre b post ∧ p = h.heap_start + total pre + 4 ∧
      WellFormed h2 (placeBlocks (needed n) pre b post) := by
  have hn2 : n ≤ INT_MAX := by unfold INT_MAX at *; omega
  obtain ⟨h1, pre, b, post, hbest, hpe, hh2, -⟩ := balloc_result hwf hn2 hb hp
  have hbest' := hbest
  obtain ⟨hb1, hfree, hle, -, -⟩ := hbest
  subst hb1
  have hnd := needed_eq h1 hn
  have k := place_wf hwf hfree (by rw [hnd]; omega) hle (by rw [hnd]; omega)
  subst hh2
  exact ⟨hnd, pre, b, post, hbest', hpe, k⟩

/-- Two blocks of one list that differ in their a-bit lie apart. -/
theorem blocks_apart {m : Int → Int} {a e : Int} {pre post pre2 post2 : List Block}
    {b b2 : Block} (hc : Chain m a (pre ++ b :: post) e)
    (heq : pre ++ b :: post = pre2 ++ b2 :: post2) (hne : b.alloc ≠ b2.alloc) :
    total pre + b.size ≤ total pre2 ∨ total pre2 + b2.size ≤ total pre := by
  have hc2 := hc
  rw [heq] at hc2
  rcases List.append_eq_append_iff.mp heq with ⟨a', ha1, ha2⟩ | ⟨c', hc1, hc2'⟩
  · cases a' with
    | nil =>
      simp only [List.nil_append, List.cons.injEq] at ha2
      exact absurd (by rw [ha2.1]) hne
    | cons x xs =>
      simp only [List.cons_append, List.cons.injEq] at ha2
      left
      rw [ha1, List.append_assoc] at hc2
      obtain ⟨_, hq⟩ := Chain_append.mp hc2
      have hq' : Chain m (a + total pre) ((x :: xs) ++ b2 :: post2) e := hq
      obtain ⟨_, _, _, hq3⟩ := Chain_append.mp hq' |>.1
      have := Chain_total_ge hq3
      have t1 : total pre2 = total pre + (x.size + total xs) := by
        rw [ha1, total_append]; simp only [total]
      rw [← ha2.1] at t1
      omega
  · cases c' with
    | nil =>
      simp only [List.nil_append, List.cons.injEq] at hc2'
      exact absurd (by rw [hc2'.1]) hne
    | cons x xs =>
      simp only [List.cons_append, List.cons.injEq] at hc2'
      right
      rw [hc1, List.append_assoc] at hc
      obtain ⟨_, hq⟩ := Chain_append.mp hc
      have hq' : Chain m (a + total pre2) ((x :: xs) ++ b :: post) e := hq
      obtain ⟨_, _, _, hq3⟩ := Chain_append.mp hq' |>.1
      have := Chain_total_ge hq3
      have t1 : total pre = total pre2 + (x.size + total xs) := by
        rw [hc1, total_append]; simp only [total]
      rw [← hc2'.1] at t1
      omega

/-- Frame of `balloc` for requests that do not overflow: every word that a
successful call changes lies inside the chosen block, which was free, or is
the header of the block right after it; the bytes after the header of every
block that was allocated before the call are as before. -/
theorem balloc_frame (fuel : Nat) (h h2 : Heap) (bs : List Block) (n p : Int)
    (hwf : WellFormed h bs) (hn : n ≤ INT_MAX - 11)
    (hb : balloc fuel h n = some (h2, p)) (hp : p ≠ 0) :
    (∃ pre b post, bs = pre ++ b :: post ∧ b.alloc = false ∧
      p = h.heap_start + total pre + 4 ∧
      ∀ x, h2.mem x ≠ h.mem x →
        (h.heap_start + total pre ≤ x ∧ x < h.heap_start + total pre + b.size) ∨
        (x = h.heap_start + total pre + b.size ∧ post ≠ [])) ∧
    (∀ pre2 b2 post2, bs = pre2 ++ b2 :: post2 → b2.alloc = true →
      ∀ x, h.heap_start + total pre2 + 4 ≤ x → x < h.heap_start + total pre2 + b2.size →
        h2.mem x = h.mem x) := by
  have hn2 : n ≤ INT_MAX := by unfold INT_MAX at *; omega
  have hbd := hwf.bound
  obtain ⟨h1, pre, b, post, hbest, hpe, hh2, -⟩ := balloc_result hwf hn2 hb hp
  obtain ⟨hb1, hfree, hle, -, -⟩ := hbest
  have hnd := needed_eq h1 hn
  obtain ⟨hpos, ha, hmax, hc, he, ht⟩ := hwf
  have hc' := hc
  rw [hb1] at hc'
  obtain ⟨c1, c2, c3, c4, c5, c6, c7, cpre, cpost⟩ := Chain_size_le hc'
  obtain ⟨f1, -⟩ := @place_frame h.mem (h.heap_start + total pre) (needed n) b c2 (by omega)
    (by rw [hnd]; omega) hle
  have hend : post = [] →
      place h.mem (h.heap_start + total pre) b.size (needed n) (h.heap_start + total pre + b.size)
        = h.mem (h.heap_start + total pre + b.size) := by
    intro hpost
    subst hpost
    simp only [Chain] at cpost
    have ht' := ht
    rw [hb1] at ht'
    obtain ⟨-, k2⟩ := place_chain hc' he ht' hbd hfree (by rw [hnd]; omega) hle
      (by rw [hnd]; omega)
    rw [cpost, k2, he]
  have hmem : h2.mem = place h.mem (h.heap_start + total pre) b.size (needed n) := by
    rw [hh2]
  have hchg : ∀ x, h2.mem x ≠ h.mem x →
      (h.heap_start + total pre ≤ x ∧ x < h.heap_start + total pre + b.size) ∨
      (x = h.heap_start + total pre + b.size ∧ post ≠ []) := by
    intro x hx
    rw [hmem] at hx
    by_contra hcon
    apply hx
    by_cases hxe : x = h.heap_start + total pre + b.size
    · subst hxe
      by_cases hpn : post = []
      · exact hend hpn
      · exact absurd (Or.inr ⟨rfl, hpn⟩) hcon
    · exact f1 x (by
        by_contra h3
        exact hcon (Or.inl (by omega)))
  refine ⟨⟨pre, b, post, hb1, hfree, hpe, hchg⟩, ?_⟩
  intro pre2 b2 post2 hbs2 hal2 x hx1 hx2
  by_contra hx
  have hc2 := hc
  rw [hbs2] at hc2
  have heq : pre2 ++ b2 :: post2 = pre ++ b :: post := by rw [← hbs2, hb1]
  have hap := blocks_apart hc2 heq (by rw [hal2, hfree]; simp)
  rcases hchg x hx with ⟨r1, r2⟩ | ⟨r1, _⟩ <;> omega

/-- Two blocks of one list at different offsets lie apart. -/
theorem blocks_apart_pos {m : Int → Int} {a e : Int} {pre post pre2 post2 : List Block}
    {b b2 : Block} (hc : Chain m a (pre ++ b :: post) e)
    (heq : pre ++ b :: post = pre2 ++ b2 :: post2) (hne : total pre ≠ total pre2) :
    total pre + b.size ≤ total pre2 ∨ total pre2 + b2.size ≤ total pre := by
  have hc2 := hc
  rw [heq] at hc2
  rcases List.append_eq_append_iff.mp heq with ⟨a', ha1, ha2⟩ | ⟨c', hc1, hc2'⟩
  · cases a' with
    | nil =>
      rw [List.append_nil] at ha1
      exact absurd (by rw [ha1]) hne
    | cons x xs =>
      simp only [List.cons_append, List.cons.injEq] at ha2
      left
      rw [ha1, List.append_assoc] at hc2
      obtain ⟨_, hq⟩ := Chain_append.mp hc2
      have hq' : Chain m (a + total pre) ((x :: xs) ++ b2 :: post2) e := hq
      obtain ⟨_, _, _, hq3⟩ := Chain_append.mp hq' |>.1
      have := Chain_total_ge hq3
      have t1 : total pre2 = total pre + (x.size + total xs) := by
        rw [ha1, total_append]; simp only [total]
      rw [← ha2.1] at t1
      omega
  · cases c' with
    | nil =>
      rw [List.append_nil] at hc1
      exact absurd (by rw [hc1]) hne
    | cons x xs =>
      simp only [List.cons_append, List.cons.injEq] at hc2'
      right
      rw [hc1, List.append_assoc] at hc
      obtain ⟨_, hq⟩ := Chain_append.mp hc
      have hq' : Chain m (a + total pre2) ((x :: xs) ++ b :: post) e := hq
      obtain ⟨_, _, _, hq3⟩ := Chain_append.mp hq' |>.1
      have := Chain_total_ge hq3
      have t1 : total pre = total pre2 + (x.size + total xs) := by
        rw [hc1, total_append]; simp only [total]
      rw [← hc2'.1] at t1
      omega

theorem forward_frame {m : Int → Int} {hs e : Int} {pre post : List Block} {cur : Block}
    (hc : Chain m hs (pre ++ cur :: post) e) (he : m e = 1)
    (ht : Tags m hs true (pre ++ cur :: post)) (hbd : e - hs ≤ 2147483640)
    (hal : cur.alloc = true) :
    (∀ x, x < hs + total pre ∨ hs + total pre + cur.size < x →
      (∀ nx rest, post = nx :: rest → nx.alloc = false →
        x < hs + total pre + cur.size ∨ hs + total pre + cur.size + nx.size ≤ x) →
      (mergeNext (markFree m (hs + total pre) cur.size) (hs + total pre) cur.size).1 x = m x) ∧
    (post = [] →
      (mergeNext (markFree m (hs + total pre) cur.size) (hs + total pre) cur.size).1
        (hs + total pre + cur.size) = m (hs + total pre + cur.size)) := by
  obtain ⟨c1, c2, c3, c4, c5, c6, c7, cpre, cpost⟩ := Chain_size_le hc
  obtain ⟨k1, k2, k3, k4⟩ := markFree_spec m (hs + total pre) cur.size c2
  have eb := enc_bounds cur
  have hcur : markFree m (hs + total pre) cur.size (hs + total pre) =
      enc ⟨cur.size, false, cur.palloc⟩ := by
    rw [k1, c1, wrap32_id (by omega) (by omega), enc_clear_a cur hal]
  cases post with
  | nil =>
    simp only [Chain] at cpost
    have hn : markFree m (hs + total pre) cur.size (hs + total pre + cur.size) = 1 := by
      rw [k3, cpost, he]; simp
    have hab : aBit (markFree m (hs + total pre) cur.size (hs + total pre + cur.size)) = true := by
      rw [hn]; decide
    rw [mergeNext_skip _ _ _ hab]
    refine ⟨fun x hx _ => k4 x (by omega) (by omega) (by omega), fun _ => ?_⟩
    show markFree m (hs + total pre) cur.size (hs + total pre + cur.size) = _
    rw [hn, cpost, he]
  | cons nx rest =>
    obtain ⟨q1, q2, q3, q4⟩ := cpost
    obtain ⟨-, -, t3⟩ := (Tags_append.mp ht).2
    obtain ⟨t4, -, -⟩ := t3
    rw [hal] at t4
    have enx := enc_bounds nx
    have hq := Chain_end q4
    have hqg := Chain_total_ge q4
    have hne : m (hs + total pre + cur.size) ≠ 1 := by rw [q1]; exact enc_ne_one nx q2
    have hnx : markFree m (hs + total pre) cur.size (hs + total pre + cur.size) =
        enc ⟨nx.size, nx.alloc, false⟩ := by
      rw [k3, if_pos hne, q1, wrap32_id (by omega) (by omega), enc_clear_p nx t4]
    refine ⟨?_, fun hnil => absurd hnil (by simp)⟩
    cases hna : nx.alloc
    · have hab : aBit (markFree m (hs + total pre) cur.size (hs + total pre + cur.size))
          = false := by
        rw [hnx, aBit_enc ⟨nx.size, nx.alloc, false⟩ q3]; exact hna
      have hval : markFree m (hs + total pre) cur.size (hs + total pre + cur.size) = nx.size := by
        rw [hnx, hna]; simp [enc]
      rw [mergeNext_merge _ _ _ _ _ hab hval rfl c2 (by omega)]
      intro x hx hx2
      have := hx2 nx rest rfl hna
      have x1 : x ≠ hs + total pre := by omega
      have x4 : x ≠ hs + total pre + cur.size + nx.size - 4 := by omega
      show store (store _ _ _) _ _ x = m x
      rw [store_other _ _ x4, store_other _ _ x1]
      exact k4 x (by omega) (by omega) (by omega)
    · have hab : aBit (markFree m (hs + total pre) cur.size (hs + total pre + cur.size))
          = true := by
        rw [hnx, aBit_enc ⟨nx.size, nx.alloc, false⟩ q3]; exact hna
      rw [mergeNext_skip _ _ _ hab]
      exact fun x hx _ => k4 x (by omega) (by omega) (by omega)

theorem backward_frame {M m : Int → Int} {hs e cs nf : Int} {pre post : List Block} {cb : Block}
    (hc : Chain M hs (pre ++ cb :: post) e)
    (hM : ∀ x, x < hs + total pre → M x = m x) (ht : Tags m hs true pre)
    (hlast : cb.palloc = lastAlloc true pre) :
    ∀ x, x ≠ nf →
      (∀ pre2 pv, pre = pre2 ++ [pv] → pv.alloc = false → x ≠ hs + total pre2) →
      mergePrev M (hs + total pre) cs nf x = M x := by
  obtain ⟨c1, c2, c3, c4, c5, c6, c7, cpre, cpost⟩ := Chain_size_le hc
  have hpb : pBit (M (hs + total pre)) = cb.palloc := by rw [c1, pBit_enc _ c3]
  intro x x1 x2
  cases hp : cb.palloc
  · rw [hp] at hpb
    obtain ⟨pre2, pv, hpre, hpv⟩ := lastAlloc_false (by rw [← hlast]; exact hp)
    have x3 := x2 pre2 pv hpre hpv
    subst hpre
    obtain ⟨t1, t2⟩ := Tags_append.mp ht
    obtain ⟨-, t3, -⟩ := t2
    have t4 := (t3 hpv).2
    rw [List.append_assoc] at hc
    obtain ⟨d1, d2, d3, d4, d5, d6, d7, dpre, dpost⟩ := Chain_size_le hc
    rw [total_append] at *
    simp only [total, Int.add_zero] at *
    have hfoot : M (hs + (total pre2 + pv.size) - 4) = pv.size := by
      rw [hM _ (by omega)]
      have : hs + (total pre2 + pv.size) - 4 = hs + total pre2 + pv.size - 4 := by omega
      rw [this]; exact t4
    have hpa : hs + (total pre2 + pv.size) - pv.size = hs + total pre2 := by omega
    rw [mergePrev_merge _ _ _ _ _ _ hpb hfoot rfl, hpa, store_other _ _ x1, store_other _ _ x3]
  · rw [hp] at hpb
    rw [mergePrev_skip _ _ _ _ hpb]

/-- Frame of `bfree` on the payload address of an allocated block of a
well-formed heap: a word that the call changes lies inside the freed block, or
is the header of the block right after it, or lies inside that block when it
was free, or is the header of the free block right before.  The bytes after
the header of every other allocated block are as before. -/
theorem bfree_frame (fuel : Nat) (h h2 : Heap) (pre post : List Block) (cur : Block)
    (hwf : WellFormed h (pre ++ cur :: post)) (hal : cur.alloc = true)
    (hb : bfree fuel h (h.heap_start + total pre + 4) = some (h2, 0)) :
    (∀ x, h2.mem x ≠ h.mem x →
      (h.heap_start + total pre ≤ x ∧ x < h.heap_start + total pre + cur.size) ∨
      (x = h.heap_start + total pre + cur.size ∧ post ≠ []) ∨
      (∃ nx rest, post = nx :: rest ∧ nx.alloc = false ∧
        h.heap_start + total pre + cur.size ≤ x ∧
        x < h.heap_start + total pre + cur.size + nx.size) ∨
      (∃ pre2 pv, pre = pre2 ++ [pv] ∧ pv.alloc = false ∧ x = h.heap_start + total pre2)) ∧
    (∀ pre2 b2 post2, pre ++ cur :: post = pre2 ++ b2 :: post2 → b2.alloc = true →
      total pre2 ≠ total pre →
      ∀ x, h.heap_start + total pre2 + 4 ≤ x → x < h.heap_start + total pre2 + b2.size →
        h2.mem x = h.mem x) := by
  have hbd := hwf.bound
  have hh2 := bfree_inv hb
  have e4 : h.heap_start + total pre + 4 - 4 = h.heap_start + total pre := by omega
  rw [e4] at hh2
  obtain ⟨hpos, ha, hmax, hc, he, ht⟩ := hwf
  obtain ⟨c1, c2, c3, c4, c5, c6, c7, cpre, cpost⟩ := Chain_size_le hc
  obtain ⟨f1, f2, f3, f4, f5, f6, f7⟩ := forward_chain hc he ht hbd hal
  obtain ⟨g1, g2⟩ := forward_frame hc he ht hbd hal
  obtain ⟨t1, t2⟩ := Tags_append.mp ht
  obtain ⟨t3, -, -⟩ := t2
  have hbk := @backward_frame _ h.mem _ _
    (mergeNext (markFree h.mem (h.heap_start + total pre) cur.size) (h.heap_start + total pre)
      cur.size).2 (h.heap_start + total pre + cur.size - 4) _ _ _ f1 f4 t1 (by rw [f7, t3])
  have hmem : h2.mem = freeBlock h.mem (h.heap_start + total pre) := by rw [hh2]
  rw [freeBlock_unfold h.mem _ cur.size cur c1 hal rfl c2 (by omega) c3] at hmem
  have hchg : ∀ x, h2.mem x ≠ h.mem x →
      (h.heap_start + total pre ≤ x ∧ x < h.heap_start + total pre + cur.size) ∨
      (x = h.heap_start + total pre + cur.size ∧ post ≠ []) ∨
      (∃ nx rest, post = nx :: rest ∧ nx.alloc = false ∧
        h.heap_start + total pre + cur.size ≤ x ∧
        x < h.heap_start + total pre + cur.size + nx.size) ∨
      (∃ pre2 pv, pre = pre2 ++ [pv] ∧ pv.alloc = false ∧ x = h.heap_start + total pre2) := by
    intro x hx
    by_contra hcon
    simp only [not_or] at hcon
    obtain ⟨n1, n2, n3, n4⟩ := hcon
    apply hx
    rw [hmem]
    have x1 : x ≠ h.heap_start + total pre + cur.size - 4 := by omega
    have x2 : ∀ pre2 pv, pre = pre2 ++ [pv] → pv.alloc = false →
        x ≠ h.heap_start + total pre2 := fun pre2 pv hp hv hxe => n4 ⟨pre2, pv, hp, hv, hxe⟩
    rw [hbk x x1 x2]
    by_cases hxe : x = h.heap_start + total pre + cur.size
    · subst hxe
      by_cases hpn : post = []
      · exact g2 hpn
      · exact absurd ⟨rfl, hpn⟩ n2
    · refine g1 x (by omega) (fun nx rest hp hv => ?_)
      by_contra h3
      exact n3 ⟨nx, rest, hp, hv, by omega, by omega⟩
  refine ⟨hchg, ?_⟩
  intro pre2 b2 post2 hbs2 hal2 hne x hx1 hx2
  by_contra hx
  have hc2 := hc
  rw [hbs2] at hc2
  obtain ⟨d1, d2, d3, d4, d5, d6, d7, -, -⟩ := Chain_size_le hc2
  have hap := blocks_apart_pos hc2 hbs2.symm hne
  rcases hchg x hx with ⟨r1, r2⟩ | ⟨r1, -⟩ | ⟨nx, rest, hp, hv, r1, r2⟩ | ⟨pre3, pv, hp, hv, r1⟩
  · omega
  · omega
  · have heq : pre2 ++ b2 :: post2 = (pre ++ [cur]) ++ nx :: rest := by
      rw [← hbs2, hp]; simp
    have := blocks_apart hc2 heq (by rw [hal2, hv]; simp)
    rw [total_append] at this
    simp only [total, Int.add_zero] at this
    omega
  · have heq : pre2 ++ b2 :: post2 = pre3 ++ pv :: (cur :: post) := by
      rw [← hbs2, hp]; simp
    have := blocks_apart hc2 heq (by rw [hal2, hv]; simp)
    have hc3 := hc2
    rw [heq] at hc3
    obtain ⟨_, p2, _⟩ := Chain_size_le hc3
    omega

/-! ## Boundary tags after bfree -/

theorem forward_tags {m : Int → Int} {hs e : Int} {pre post : List Block} {cur : Block}
    (hc : Chain m hs (pre ++ cur :: post) e) (he : m e = 1)
    (ht : Tags m hs true (pre ++ cur :: post)) (hbd : e - hs ≤ 2147483640)
    (hal : cur.alloc = true) :
    (mergeNext (markFree m (hs + total pre) cur.size) (hs + total pre) cur.size).1
      (hs + total pre + (fwdBlock cur post).size - 4) = (fwdBlock cur post).size ∧
    Tags (mergeNext (markFree m (hs + total pre) cur.size) (hs + total pre) cur.size).1
      (hs + total pre + (fwdBlock cur post).size) false (fwdRest post) := by
  obtain ⟨c1, c2, c3, c4, c5, c6, c7, cpre, cpost⟩ := Chain_size_le hc
  obtain ⟨k1, k2, k3, k4⟩ := markFree_spec m (hs + total pre) cur.size c2
  obtain ⟨g1, g2⟩ := forward_frame hc he ht hbd hal
  obtain ⟨-, tcur⟩ := Tags_append.mp ht
  obtain ⟨-, -, tpost⟩ := tcur
  rw [hal] at tpost
  cases post with
  | nil =>
    simp only [Chain] at cpost
    have hn : markFree m (hs + total pre) cur.size (hs + total pre + cur.size) = 1 := by
      rw [k3, cpost, he]; simp
    have hab : aBit (markFree m (hs + total pre) cur.size (hs + total pre + cur.size)) = true := by
      rw [hn]; decide
    rw [mergeNext_skip _ _ _ hab]
    exact ⟨k2, trivial⟩
  | cons nx rest =>
    obtain ⟨q1, q2, q3, q4⟩ := cpost
    obtain ⟨t4, t5, t6⟩ := tpost
    have enx := enc_bounds nx
    have hq := Chain_end q4
    have hqg := Chain_total_ge q4
    have hne : m (hs + total pre + cur.size) ≠ 1 := by rw [q1]; exact enc_ne_one nx q2
    have hnx : markFree m (hs + total pre) cur.size (hs + total pre + cur.size) =
        enc ⟨nx.size, nx.alloc, false⟩ := by
      rw [k3, if_pos hne, q1, wrap32_id (by omega) (by omega), enc_clear_p nx t4]
    cases hna : nx.alloc
    · have hab : aBit (markFree m (hs + total pre) cur.size (hs + total pre + cur.size))
          = false := by
        rw [hnx, aBit_enc ⟨nx.size, nx.alloc, false⟩ q3]; exact hna
      have hval : markFree m (hs + total pre) cur.size (hs + total pre + cur.size) = nx.size := by
        rw [hnx, hna]; simp [enc]
      have hg : ∀ x, hs + total pre + cur.size + nx.size ≤ x →
          (mergeNext (markFree m (hs + total pre) cur.size) (hs + total pre) cur.size).1 x
            = m x :=
        fun x hx => g1 x (by omega) (fun nx2 rest2 hp _ => by
          simp only [List.cons.injEq] at hp
          rw [← hp.1]; omega)
      rw [hna] at t6
      simp only [fwdBlock, fwdRest, hna, Bool.false_eq_true, if_false]
      have ea : hs + total pre + (cur.size + nx.size) = hs + total pre + cur.size + nx.size := by
        omega
      rw [ea]
      refine ⟨?_, Tags_congr (fun x hx _ => hg x hx) q4 t6⟩
      rw [mergeNext_merge _ _ _ _ _ hab hval rfl c2 (by omega)]
      show store _ _ _ _ = _
      rw [store_same, wrap32_id (by omega) (by omega)]
      omega
    · have hab : aBit (markFree m (hs + total pre) cur.size (hs + total pre + cur.size))
          = true := by
        rw [hnx, aBit_enc ⟨nx.size, nx.alloc, false⟩ q3]; exact hna
      have hg : ∀ x, hs + total pre + cur.size < x →
          (mergeNext (markFree m (hs + total pre) cur.size) (hs + total pre) cur.size).1 x
            = m x :=
        fun x hx => g1 x (by omega) (fun nx2 rest2 hp hv => by
          simp only [List.cons.injEq] at hp
          rw [← hp.1, hna] at hv
          exact absurd hv (by simp))
      rw [hna] at t6
      simp only [fwdBlock, fwdRest, hna, if_true]
      refine ⟨?_, rfl, fun hf => absurd hf (by simp), ?_⟩
      · rw [mergeNext_skip _ _ _ hab]; exact k2
      · show Tags _ (hs + total pre + cur.size + nx.size) true rest
        exact Tags_congr (fun x hx _ => hg x (by omega)) q4 t6

/-- After `bfree` of the payload address of an allocated block of a well-formed
heap whose two neighbours are not both free, the heap is well-formed again, with
the block list of `freeBlocks`: in particular no two adjacent blocks are free
and every free block ends with a footer equal to its size. -/
theorem freeBlock_wf {h : Heap} {pre post : List Block} {cur : Block}
    (hwf : WellFormed h (pre ++ cur :: post)) (hal : cur.alloc = true)
    (hnb : cur.palloc = true ∨ post = [] ∨ ∃ nx rest, post = nx :: rest ∧ nx.alloc = true) :
    WellFormed ⟨h.heap_start, h.alloc_size, h.allocated_once,
      freeBlock h.mem (h.heap_start + total pre)⟩ (freeBlocks pre cur post) := by
  have hbd := hwf.bound
  obtain ⟨k1, k2, -⟩ := freeBlock_chain hwf hal
  obtain ⟨hpos, ha, hmax, hc, he, ht⟩ := hwf
  refine ⟨hpos, ha, hmax, k1, k2, ?_⟩
  show Tags (freeBlock h.mem (h.heap_start + total pre)) h.heap_start true
    (freeBlocks pre cur post)
  obtain ⟨c1, c2, c3, c4, c5, c6, c7, cpre, cpost⟩ := Chain_size_le hc
  obtain ⟨f1, f2, f3, f4, f5, f6, f7⟩ := forward_chain hc he ht hbd hal
  obtain ⟨w1, w2⟩ := forward_tags hc he ht hbd hal
  obtain ⟨t1, t2⟩ := Tags_append.mp ht
  obtain ⟨t3, -, -⟩ := t2
  obtain ⟨r1, r2, r3, r4, r5, r6, r7, rpre, rpost⟩ := Chain_size_le f1
  rw [freeBlock_unfold h.mem _ cur.size cur c1 hal rfl c2 (by omega) c3]
  unfold freeBlocks
  have hpb : pBit ((mergeNext (markFree h.mem (h.heap_start + total pre) cur.size)
      (h.heap_start + total pre) cur.size).1 (h.heap_start + total pre)) = cur.palloc := by
    rw [r1, pBit_enc _ r3, f7]
  cases hp : cur.palloc
  · -- the block before is free, so the block after is not
    rw [hp] at hpb t3
    have hsz : (fwdBlock cur post).size = cur.size := by
      rcases hnb with hx | hx | ⟨nx, rest, hx, hv⟩
      · rw [hp] at hx; exact absurd hx (by simp)
      · subst hx; rfl
      · subst hx; simp only [fwdBlock, hv, if_true]
    obtain ⟨pre2, pv, hpre, hpv⟩ := lastAlloc_false t3.symm
    subst hpre
    obtain ⟨u1, u2⟩ := Tags_append.mp t1
    obtain ⟨u3, u4, -⟩ := u2
    obtain ⟨u5, u6⟩ := u4 hpv
    have cpre2 := (Chain_append.mp cpre).1
    rw [List.append_assoc] at f1
    obtain ⟨d1, d2, d3, d4, d5, d6, d7, dpre, dpost⟩ := Chain_size_le f1
    rw [total_append] at *
    simp only [total, Int.add_zero] at *
    have hfoot : (mergeNext (markFree h.mem (h.heap_start + (total pre2 + pv.size)) cur.size)
        (h.heap_start + (total pre2 + pv.size)) cur.size).1
        (h.heap_start + (total pre2 + pv.size) - 4) = pv.size := by
      rw [f4 _ (by omega)]
      have : h.heap_start + (total pre2 + pv.size) - 4 =
          h.heap_start + total pre2 + pv.size - 4 := by omega
      rw [this]; exact u6
    have hpa : h.heap_start + (total pre2 + pv.size) - pv.size = h.heap_start + total pre2 := by
      omega
    have hcp : (fwdBlock cur post).palloc = false := by rw [f7, hp]
    rw [mergePrev_merge _ _ _ _ _ _ hpb hfoot rfl, mergeBack_concat _ _ _ _ hcp, hpa, f3, hsz]
    have hw : wrap32 (cur.size + pv.size) = cur.size + pv.size := wrap32_id (by omega) (by omega)
    rw [hw]
    have hfr : ∀ x, x ≠ h.heap_start + total pre2 →
        x ≠ h.heap_start + (total pre2 + pv.size) + cur.size - 4 →
        store (store (mergeNext (markFree h.mem (h.heap_start + (total pre2 + pv.size)) cur.size)
          (h.heap_start + (total pre2 + pv.size)) cur.size).1 (h.heap_start + total pre2)
          (wrap32 (cur.size + pv.size + if pBit ((mergeNext (markFree h.mem
            (h.heap_start + (total pre2 + pv.size)) cur.size)
            (h.heap_start + (total pre2 + pv.size)) cur.size).1 (h.heap_start + total pre2))
            then 2 else 0)))
          (h.heap_start + (total pre2 + pv.size) + cur.size - 4) (cur.size + pv.size) x =
        (mergeNext (markFree h.mem (h.heap_start + (total pre2 + pv.size)) cur.size)
          (h.heap_start + (total pre2 + pv.size)) cur.size).1 x := by
      intro x x1 x2
      rw [store_other _ _ x2, store_other _ _ x1]
    refine Tags_append.mpr ⟨?_, u3, fun _ => ⟨u5, ?_⟩, ?_⟩
    · exact Tags_congr (fun x _ hx => by rw [hfr x (by omega) (by omega), f4 x (by omega)])
        cpre2 u1
    · show store _ _ _ (h.heap_start + total pre2 + (pv.size + cur.size) - 4) = pv.size + cur.size
      have : h.heap_start + total pre2 + (pv.size + cur.size) - 4 =
          h.heap_start + (total pre2 + pv.size) + cur.size - 4 := by omega
      rw [this, store_same]
      omega
    · show Tags _ (h.heap_start + total pre2 + (pv.size + cur.size)) false (fwdRest post)
      have ea : h.heap_start + total pre2 + (pv.size + cur.size) =
          h.heap_start + (total pre2 + pv.size) + (fwdBlock cur post).size := by
        rw [hsz]; omega
      rw [ea]
      exact Tags_congr (fun x hx _ => hfr x (by rw [hsz] at hx; omega)
        (by rw [hsz] at hx; omega)) rpost w2
  · -- the block before is allocated
    rw [hp] at hpb t3
    rw [mergePrev_skip _ _ _ _ hpb]
    have hcp : (fwdBlock cur post).palloc = true := by rw [f7, hp]
    unfold mergeBack
    simp only [hcp, if_true]
    refine Tags_append.mpr ⟨Tags_congr (fun x _ hx => f4 x hx) cpre t1, ?_, fun _ => ⟨t3.symm, w1⟩,
      by rw [f6]; exact w2⟩
    rw [hcp]; exact t3

end P3Heap
